import Mathlib

/-
Verification of the citation resolution engine (eyecite/resolve.py).

The engine takes an ordered list of typed citation mentions and groups them
by the resource each one resolves to.  The definitions below are a shallow
embedding of `eyecite/resolve.py`; the supporting data types (the citation
classes and `strip_punct`, which live in modules not present in `src/`) are
modelled from the specification, as marked in their doc comments.
-/

set_option autoImplicit false

namespace Eyecite

/-- Modelled from the spec: subtypes of a `Full` mention (`eyecite.models` is
not in `src/`).  Only the case subtype participates in antecedent matching. -/
inductive FullKind where
  | caseKind
  | lawKind
  | journalKind
  deriving DecidableEq

/-- Modelled from the spec: the metadata record attached to a mention
(`eyecite.models` is not in `src/`).  Only the three optional fields that the
resolution engine reads are represented; `none` models Python `None`. -/
structure Metadata where
  plaintiff : Option String
  defendant : Option String
  antecedent_guess : Option String
  deriving DecidableEq

/-- Modelled from the spec: the payload of a `Full` mention (`eyecite.models`
is not in `src/`).  `tag` stands for the mention's source span, which makes
distinct extracted mentions distinct values; `corrected_reporter` is the
normalized reporter string and `volume` is the raw matched volume token
(`groups.get("volume")`, `none` when absent). -/
structure FullData where
  tag : Nat
  kind : FullKind
  corrected_reporter : String
  volume : Option String
  metadata : Metadata
  deriving DecidableEq

/-- Modelled from the spec: the payload of a `ShortForm` mention
(`eyecite.models` is not in `src/`). -/
structure ShortData where
  tag : Nat
  corrected_reporter : String
  volume : Option String
  metadata : Metadata
  deriving DecidableEq

/-- Modelled from the spec: the payload of a `Supra` mention. -/
structure SupraData where
  tag : Nat
  metadata : Metadata
  deriving DecidableEq

/-- Modelled from the spec: the payload of an `Id` mention. -/
structure IdData where
  tag : Nat
  deriving DecidableEq

/-- Modelled from the spec: the payload of an `Other` (non-opinion) mention. -/
structure OtherData where
  tag : Nat
  deriving DecidableEq

/-- A citation mention, one of the five variants dispatched on by
`resolve_citations` (`isinstance` checks on lines 163-183 of resolve.py). -/
inductive Citation where
  | full (d : FullData)
  | short (d : ShortData)
  | supra (d : SupraData)
  | idc (d : IdData)
  | other (d : OtherData)
  deriving DecidableEq

/-- Modelled from the spec: the default `Resource` wrapper (`eyecite.models`
is not in `src/`).  A resource wraps exactly one full mention and is equal
only to itself (reference identity); `pos` records the engine position at
which `Resource(full_citation)` was allocated, so that each allocation yields
a distinct value, exactly as Python object identity does within one pass. -/
structure Resource where
  pos : Nat
  citation : FullData
  deriving DecidableEq

/-- Python truthiness for the resource type: `resolve_citations` tests a
resolution with `if resolution:`, not `if resolution is not None:`. -/
class PyBool (ρ : Type) where
  truthy : ρ → Bool

/-- A default `Resource` object is always truthy in Python. -/
instance : PyBool Resource := ⟨fun _ => true⟩

/-- Python truthiness of an integer resource: zero is falsy. -/
instance : PyBool Nat := ⟨fun n => decide (¬ n = 0)⟩

/-- Python truthiness of an optional string (e.g. a metadata field):
`None` and the empty string are falsy. -/
def pyStrTruthy : Option String → Bool
  | none => false
  | some s => !s.isEmpty

/-- Characters treated as punctuation by the guess normalization. -/
def isPunctChar (c : Char) : Bool :=
  c = ',' || c = '.' || c = ';' || c = ':' || c = '!' || c = '?' ||
  c = '"' || c = '(' || c = ')' || c = '[' || c = ']'

/-- Modelled from the spec: `eyecite.utils.strip_punct` is not in `src/`;
the spec says the guess is normalized by stripping surrounding punctuation
noise (trailing commas, periods, quotation marks). -/
def strip_punct (s : String) : String :=
  String.mk (((s.toList.dropWhile isPunctChar).reverse.dropWhile isPunctChar).reverse)

/-- `isPrefList p s` is true when `p` is a prefix of `s`. -/
def isPrefList : List Char → List Char → Bool
  | [], _ => true
  | _ :: _, [] => false
  | a :: as, b :: bs => a = b && isPrefList as bs

/-- `containsSub pat s` is Python's substring test `pat in s`
on the character lists of the two strings. -/
def containsSub (pat : List Char) : List Char → Bool
  | [] => isPrefList pat []
  | b :: bs => isPrefList pat (b :: bs) || containsSub pat bs

/-- Python's `pat in s` on strings: contiguous, case-sensitive substring. -/
def strContains (s pat : String) : Bool :=
  containsSub pat.toList s.toList

/-- The body of the candidate loop of `_filter_by_matching_antecedent`
(lines 33-42): the stripped guess must be a substring of the truthy
`defendant` field, `elif` of the truthy `plaintiff` field. -/
def antecedentMatch (ag : String) (fd : FullData) : Bool :=
  (pyStrTruthy fd.metadata.defendant && strContains (fd.metadata.defendant.getD "") ag) ||
  (pyStrTruthy fd.metadata.plaintiff && strContains (fd.metadata.plaintiff.getD "") ag)

/-- A candidate is retained by `_filter_by_matching_antecedent` when it is a
`FullCaseCitation` (non-case candidates hit `continue`, line 31) and its
defendant/plaintiff matches the stripped guess. -/
def matcherHit (ag : String) (fd : FullData) : Bool :=
  decide (fd.kind = FullKind.caseKind) && antecedentMatch ag fd

/-- `_filter_by_matching_antecedent` (resolve.py lines 24-46): collect the
resources of the matching case candidates, deduplicate (`list(set(matches))`)
and return `matches[0]` only if exactly one distinct resource remains
(the guarded indexing is rendered by `head?`). -/
def filter_by_matching_antecedent {ρ : Type} [DecidableEq ρ]
    (resolved_full_cites : List (FullData × ρ)) (antecedent_guess : String) :
    Option ρ :=
  let ag := strip_punct antecedent_guess
  let ms := (resolved_full_cites.filter (fun p => matcherHit ag p.1)).map Prod.snd
  if ms.dedup.length = 1 then ms.dedup.head? else none

/-- The candidate filter of `_resolve_shortcase_citation` (lines 61-70):
a `FullCaseCitation` whose corrected reporter equals the short mention's and
whose raw volume token equals the short mention's (string equality on the
optional raw tokens, `None == None` included). -/
def shortMatchesFull (sc : ShortData) (fd : FullData) : Bool :=
  decide (fd.kind = FullKind.caseKind) &&
  decide (sc.corrected_reporter = fd.corrected_reporter) &&
  decide (sc.volume = fd.volume)

/-- The filtered candidate list of `_resolve_shortcase_citation`. -/
def shortCandidates {ρ : Type} (sc : ShortData) (table : List (FullData × ρ)) :
    List (FullData × ρ) :=
  table.filter (fun p => shortMatchesFull sc p.1)

/-- `_resolve_shortcase_citation` (lines 49-84).  The indexing
`candidates[0][1]` of the source is guarded by the uniqueness check and is
rendered by `head?` on the resource projection of the candidates. -/
def resolve_shortcase_citation {ρ : Type} [DecidableEq ρ]
    (short_citation : ShortData) (resolved_full_cites : List (FullData × ρ)) :
    Option ρ :=
  let candidates := shortCandidates short_citation resolved_full_cites
  if ((candidates.map Prod.snd).dedup).length = 1 then
    (candidates.map Prod.snd).head?
  else if pyStrTruthy short_citation.metadata.antecedent_guess then
    filter_by_matching_antecedent candidates
      (short_citation.metadata.antecedent_guess.getD "")
  else
    none

/-- `_resolve_supra_citation` (lines 87-103): nothing can be done without a
truthy antecedent guess; with one, the antecedent matcher runs over the whole
table of resolved full citations. -/
def resolve_supra_citation {ρ : Type} [DecidableEq ρ]
    (supra_citation : SupraData) (resolved_full_cites : List (FullData × ρ)) :
    Option ρ :=
  if !pyStrTruthy supra_citation.metadata.antecedent_guess then
    none
  else
    filter_by_matching_antecedent resolved_full_cites
      (supra_citation.metadata.antecedent_guess.getD "")

/-- `_resolve_id_citation` (lines 106-114): returns `last_resolution`
verbatim. -/
def resolve_id_citation {ρ : Type} (_id_citation : IdData)
    (last_resolution : Option ρ) : Option ρ :=
  last_resolution

/-- `resolve_full_citation` (lines 17-21): always succeeds, returning a fresh
`Resource` wrapping the mention; `pos` is the allocation position. -/
def resolve_full_citation (pos : Nat) (full_citation : FullData) : Resource :=
  ⟨pos, full_citation⟩

/-- The four injectable resolver slots of `resolve_citations`.  The full slot
receives the engine position, standing for the freshness of the Python
allocation made by the default resolver. -/
structure Resolvers (ρ : Type) where
  full : Nat → FullData → ρ
  short : ShortData → List (FullData × ρ) → Option ρ
  supra : SupraData → List (FullData × ρ) → Option ρ
  idr : IdData → Option ρ → Option ρ

/-- The default resolver bundle of `resolve_citations`. -/
def defaultResolvers : Resolvers Resource :=
  ⟨resolve_full_citation, resolve_shortcase_citation, resolve_supra_citation,
   resolve_id_citation⟩

/-- First-match lookup in an association list (Python `dict` access). -/
def alookup {α β : Type} [DecidableEq α] : List (α × β) → α → Option β
  | [], _ => none
  | p :: t, k => if p.1 = k then some p.2 else alookup t k

/-- Key membership in an association list (Python `key in dict`). -/
def keyMem {α β : Type} [DecidableEq α] (l : List (α × β)) (k : α) : Bool :=
  l.any (fun p => decide (p.1 = k))

/-- Python `d[k] = v` on an insertion-ordered dict rendered as an association
list: an existing key keeps its position and gets the new value, a new key is
appended. -/
def dictInsert {α β : Type} [DecidableEq α] (l : List (α × β)) (k : α) (v : β) :
    List (α × β) :=
  if keyMem l k then l.map (fun p => if p.1 = k then (k, v) else p)
  else l ++ [(k, v)]

/-- Python `resolutions[resolution].append(citation)` on the `defaultdict`:
append to the existing entry, or create a new singleton entry at the end. -/
def addTo {ρ : Type} [DecidableEq ρ] (g : List (ρ × List Citation)) (r : ρ)
    (c : Citation) : List (ρ × List Citation) :=
  if keyMem g r then g.map (fun p => if p.1 = r then (r, p.2 ++ [c]) else p)
  else g ++ [(r, [c])]

/-- The running state of one `resolve_citations` pass (lines 150-157). -/
structure EngineState (ρ : Type) where
  resolutions : List (ρ × List Citation)
  resolved_full_cites : List (FullData × ρ)
  last_resolution : Option ρ

/-- The value bound to `resolution` for one mention (lines 162-183):
variant dispatch to the injected resolvers, with the `Other` variant routed
to the always-fails branch. -/
def stepResolution {ρ : Type} (R : Resolvers ρ) (pos : Nat) (c : Citation)
    (st : EngineState ρ) : Option ρ :=
  match c with
  | .full d => some (R.full pos d)
  | .short d => R.short d st.resolved_full_cites
  | .supra d => R.supra d st.resolved_full_cites
  | .idc d => R.idr d st.last_resolution
  | .other _ => none

/-- The table update of one mention: a full citation is always recorded
(line 165), every other variant leaves the table unchanged. -/
def tableUpdate {ρ : Type} (R : Resolvers ρ) (pos : Nat) (c : Citation)
    (t : List (FullData × ρ)) : List (FullData × ρ) :=
  match c with
  | .full d => dictInsert t d (R.full pos d)
  | _ => t

/-- The grouping update of one mention (lines 186-188): the citation is
recorded only when `resolution` is truthy. -/
def groupingUpdate {ρ : Type} [DecidableEq ρ] [PyBool ρ] (res : Option ρ)
    (c : Citation) (g : List (ρ × List Citation)) : List (ρ × List Citation) :=
  match res with
  | some r => if PyBool.truthy r then addTo g r c else g
  | none => g

/-- One iteration of the loop of `resolve_citations` (lines 160-188);
`last_resolution` is overwritten with the mention's own result regardless of
outcome (line 185). -/
def stepState {ρ : Type} [DecidableEq ρ] [PyBool ρ] (R : Resolvers ρ)
    (pos : Nat) (c : Citation) (st : EngineState ρ) : EngineState ρ :=
  ⟨groupingUpdate (stepResolution R pos c st) c st.resolutions,
   tableUpdate R pos c st.resolved_full_cites,
   stepResolution R pos c st⟩

/-- The loop of `resolve_citations`, run from an arbitrary state. -/
def runFrom {ρ : Type} [DecidableEq ρ] [PyBool ρ] (R : Resolvers ρ) :
    List Citation → Nat → EngineState ρ → EngineState ρ
  | [], _, st => st
  | c :: cs, pos, st => runFrom R cs (pos + 1) (stepState R pos c st)

/-- The per-mention resolution values produced by the loop, in order. -/
def traceFrom {ρ : Type} [DecidableEq ρ] [PyBool ρ] (R : Resolvers ρ) :
    List Citation → Nat → EngineState ρ → List (Option ρ)
  | [], _, _ => []
  | c :: cs, pos, st =>
    stepResolution R pos c st :: traceFrom R cs (pos + 1) (stepState R pos c st)

/-- The initial state of one pass (lines 150-157). -/
def initState {ρ : Type} : EngineState ρ := ⟨[], [], none⟩

/-- The full final state of one `resolve_citations` pass. -/
def runEngine {ρ : Type} [DecidableEq ρ] [PyBool ρ] (R : Resolvers ρ)
    (citations : List Citation) : EngineState ρ :=
  runFrom R citations 0 initState

/-- `resolve_citations` (lines 117-190): the returned grouping. -/
def resolve_citations {ρ : Type} [DecidableEq ρ] [PyBool ρ] (R : Resolvers ρ)
    (citations : List Citation) : List (ρ × List Citation) :=
  (runEngine R citations).resolutions

/-- The resolution of each input mention, in input order. -/
def resolveTrace {ρ : Type} [DecidableEq ρ] [PyBool ρ] (R : Resolvers ρ)
    (citations : List Citation) : List (Option ρ) :=
  traceFrom R citations 0 initState

/-- The subsequence of the mentions whose resolution is exactly `some r`. -/
def selectFor {ρ : Type} [DecidableEq ρ] (r : ρ) :
    List Citation → List (Option ρ) → List Citation
  | [], _ => []
  | _ :: _, [] => []
  | c :: cs, t :: ts =>
    if t = some r then c :: selectFor r cs ts else selectFor r cs ts

/-- Occurrence count of an element in a list. -/
def countC {α : Type} [DecidableEq α] (l : List α) (a : α) : Nat :=
  (l.filter (fun x => decide (x = a))).length

/-- A list of resources collapses to exactly one distinct value. -/
def uniqueRes {ρ : Type} (l : List ρ) : Prop :=
  ∃ r, r ∈ l ∧ ∀ x ∈ l, x = r

/-- Recognizer for the `Id` variant. -/
def isIdCitation : Citation → Bool
  | .idc _ => true
  | _ => false

/-- The renumbering of default resources induced by deleting the input
position `k`: a resource allocated at position `p` of the shortened run
corresponds to the one allocated at `p + 1` of the original run when `k ≤ p`,
and to itself otherwise. -/
def posShift (k : Nat) (r : Resource) : Resource :=
  if k ≤ r.pos then ⟨r.pos + 1, r.citation⟩ else r

/-- Map a function over the values of an association list. -/
def mapVals {α β γ : Type} (g : β → γ) (l : List (α × β)) : List (α × γ) :=
  l.map (fun p => (p.1, g p.2))

/-- The keys of the output grouping. -/
def keysOf {ρ : Type} (g : List (ρ × List Citation)) : List ρ := g.map Prod.fst

/-- All resources held in the running state were allocated before `k`. -/
def stBound (k : Nat) (st : EngineState Resource) : Prop :=
  (∀ p ∈ st.resolved_full_cites, p.2.pos < k) ∧
  (∀ r : Resource, st.last_resolution = some r → r.pos < k)

/-- A concrete full case citation: 1 U.S. with plaintiff Foo, defendant Bar. -/
def fdEx : FullData :=
  ⟨0, FullKind.caseKind, "U.S.", some "1", ⟨some "Foo", some "Bar", none⟩⟩

/-- A concrete id mention. -/
def idEx : IdData := ⟨50⟩

/-- A concrete non-opinion mention. -/
def otherEx : OtherData := ⟨51⟩

/-- A supra mention guessing the name Foo. -/
def supEx : SupraData := ⟨60, ⟨none, none, some "Foo"⟩⟩

/-- A supra mention with no antecedent guess. -/
def supNoGuess : SupraData := ⟨61, ⟨none, none, none⟩⟩

/-- A full case citation whose defendant contains Foo. -/
def fdFoo1 : FullData :=
  ⟨10, FullKind.caseKind, "U.S.", some "2", ⟨none, some "Foo Corp", none⟩⟩

/-- A second, distinct full case citation whose defendant also contains Foo. -/
def fdFoo2 : FullData :=
  ⟨11, FullKind.caseKind, "U.S.", some "3", ⟨none, some "Foo Inc", none⟩⟩

/-- A short-form mention of 1 U.S. with no antecedent guess. -/
def scEx : ShortData := ⟨20, "U.S.", some "1", ⟨none, none, none⟩⟩

/-- A law-subtype full citation whose defendant field happens to contain Foo. -/
def fdLaw : FullData :=
  ⟨30, FullKind.lawKind, "U.S.C.", some "42", ⟨none, some "Foo Corp", none⟩⟩

/-- A full case citation with no party metadata at all. -/
def fdNone : FullData :=
  ⟨31, FullKind.caseKind, "U.S.", some "9", ⟨none, none, none⟩⟩

/-- A custom resolver bundle over integer resources whose full-citation slot
always returns the falsy resource 0; short and supra always fail, id is the
default chaining resolver. -/
def resolversZero : Resolvers Nat :=
  ⟨fun _ _ => 0, fun _ _ => none, fun _ _ => none,
   fun d l => resolve_id_citation d l⟩

/-- A custom resolver bundle over integer resources whose short-form slot
always succeeds with the falsy resource 0; full returns the truthy 1, supra
always fails, id is the default chaining resolver. -/
def resolversFalsyShort : Resolvers Nat :=
  ⟨fun _ _ => 1, fun _ _ => some 0, fun _ _ => none,
   fun d l => resolve_id_citation d l⟩


section AssocLemmas

variable {α β : Type} [DecidableEq α]

theorem keyMem_iff_alookup (l : List (α × β)) (k : α) :
    keyMem l k = true ↔ alookup l k ≠ none := by
  induction l with
  | nil => simp [keyMem, alookup]
  | cons p t ih =>
    by_cases h : p.1 = k
    · simp [keyMem, alookup, h]
    · simpa [keyMem, alookup, h] using ih

theorem alookup_dictInsert_self (l : List (α × β)) (k : α) (v : β) :
    alookup (dictInsert l k v) k = some v := by
  unfold dictInsert
  by_cases h : keyMem l k = true
  · rw [if_pos h]
    rw [keyMem_iff_alookup] at h
    induction l with
    | nil => simp [alookup] at h
    | cons p t ih =>
      by_cases hp : p.1 = k
      · simp [alookup, hp]
      · simp only [alookup, hp, if_false] at h
        simpa [alookup, hp] using ih h
  · rw [if_neg h]
    have hnone : alookup l k = none := by
      by_contra hc
      exact h ((keyMem_iff_alookup l k).mpr hc)
    induction l with
    | nil => simp [alookup]
    | cons p t ih =>
      by_cases hp : p.1 = k
      · simp [alookup, hp] at hnone
      · simp only [alookup, hp, if_false] at hnone
        have : keyMem t k ≠ true := by
          intro hc
          exact absurd ((keyMem_iff_alookup t k).mp hc) (by simp [hnone])
        simpa [alookup, hp] using ih this hnone

theorem alookup_map_update (l : List (α × β)) (k k' : α) (w : α × β → β)
    (h : k' ≠ k) :
    alookup (l.map (fun p => if p.1 = k then (k, w p) else p)) k' = alookup l k' := by
  induction l with
  | nil => rfl
  | cons p t ih =>
    by_cases hp : p.1 = k
    · have hk' : ¬k = k' := fun hh => h hh.symm
      simp [alookup, hp, hk', ih]
    · by_cases hp' : p.1 = k'
      · simp [alookup, hp, hp', h]
      · simp [alookup, hp, hp', ih]

theorem alookup_append_one (l : List (α × β)) (k k' : α) (v : β)
    (h : k' ≠ k) : alookup (l ++ [(k, v)]) k' = alookup l k' := by
  have hk' : ¬k = k' := fun hh => h hh.symm
  induction l with
  | nil => simp [alookup, hk']
  | cons p t ih =>
    by_cases hp' : p.1 = k'
    · simp [alookup, hp']
    · simp [alookup, hp', ih]

theorem alookup_dictInsert_ne (l : List (α × β)) (k k' : α) (v : β)
    (h : k' ≠ k) : alookup (dictInsert l k v) k' = alookup l k' := by
  unfold dictInsert
  by_cases hm : keyMem l k = true
  · rw [if_pos hm]
    exact alookup_map_update l k k' (fun _ => v) h
  · rw [if_neg hm]
    exact alookup_append_one l k k' v h

theorem mem_dictInsert (l : List (α × β)) (k : α) (v : β) (p : α × β)
    (hp : p ∈ dictInsert l k v) : p = (k, v) ∨ p ∈ l := by
  unfold dictInsert at hp
  by_cases hm : keyMem l k = true
  · rw [if_pos hm] at hp
    rcases List.mem_map.mp hp with ⟨q, hq, hqe⟩
    by_cases h : q.1 = k
    · rw [if_pos h] at hqe
      exact Or.inl hqe.symm
    · rw [if_neg h] at hqe
      exact Or.inr (hqe ▸ hq)
  · rw [if_neg hm] at hp
    rcases List.mem_append.mp hp with h | h
    · exact Or.inr h
    · simp at h
      exact Or.inl (by simp [h])

end AssocLemmas

section GroupingLemmas

variable {ρ : Type} [DecidableEq ρ]

theorem alookup_addTo_self (g : List (ρ × List Citation)) (r : ρ) (c : Citation) :
    alookup (addTo g r c) r = some ((alookup g r).getD [] ++ [c]) := by
  unfold addTo
  by_cases hm : keyMem g r = true
  · rw [if_pos hm]
    rw [keyMem_iff_alookup] at hm
    induction g with
    | nil => simp [alookup] at hm
    | cons p t ih =>
      by_cases hp : p.1 = r
      · simp [alookup, hp]
      · simp only [alookup, hp, if_false] at hm
        simpa [alookup, hp] using ih hm
  · rw [if_neg hm]
    have hnone : alookup g r = none := by
      by_contra hc
      exact hm ((keyMem_iff_alookup g r).mpr hc)
    rw [hnone]
    induction g with
    | nil => simp [alookup]
    | cons p t ih =>
      by_cases hp : p.1 = r
      · simp [alookup, hp] at hnone
      · simp only [alookup, hp, if_false] at hnone
        have : keyMem t r ≠ true := by
          intro hc
          exact absurd ((keyMem_iff_alookup t r).mp hc) (by simp [hnone])
        simpa [alookup, hp] using ih this hnone

theorem alookup_addTo_ne (g : List (ρ × List Citation)) (r r' : ρ) (c : Citation)
    (h : r' ≠ r) : alookup (addTo g r c) r' = alookup g r' := by
  unfold addTo
  by_cases hm : keyMem g r = true
  · rw [if_pos hm]
    exact alookup_map_update g r r' (fun p => p.2 ++ [c]) h
  · rw [if_neg hm]
    exact alookup_append_one g r r' [c] h

end GroupingLemmas

section TraceLemmas

variable {ρ : Type} [DecidableEq ρ] [PyBool ρ]

theorem traceFrom_length (R : Resolvers ρ) :
    ∀ (cs : List Citation) (pos : Nat) (st : EngineState ρ),
      (traceFrom R cs pos st).length = cs.length
  | [], _, _ => rfl
  | c :: cs, pos, st => by
    simp [traceFrom, traceFrom_length R cs]

theorem traceFrom_append (R : Resolvers ρ) :
    ∀ (xs ys : List Citation) (pos : Nat) (st : EngineState ρ),
      traceFrom R (xs ++ ys) pos st =
        traceFrom R xs pos st ++
          traceFrom R ys (pos + xs.length) (runFrom R xs pos st)
  | [], ys, pos, st => by simp [traceFrom, runFrom]
  | x :: xs, ys, pos, st => by
    have h : pos + 1 + xs.length = pos + (xs.length + 1) := by omega
    simp only [List.cons_append, traceFrom, runFrom, List.length_cons,
      List.append_eq]
    rw [traceFrom_append R xs ys (pos + 1), h]

theorem traceFrom_get_full (R : Resolvers ρ) :
    ∀ (cs : List Citation) (pos : Nat) (st : EngineState ρ) (i : Nat) (d : FullData),
      cs.get? i = some (Citation.full d) →
      (traceFrom R cs pos st).get? i = some (some (R.full (pos + i) d))
  | [], _, _, i, d, h => by simp at h
  | c :: cs, pos, st, 0, d, h => by
    simp only [List.get?] at h
    cases h
    simp [traceFrom, stepResolution]
  | c :: cs, pos, st, i + 1, d, h => by
    have harith : pos + 1 + i = pos + (i + 1) := by omega
    have := traceFrom_get_full R cs (pos + 1) (stepState R pos c st) i d
      (by simpa using h)
    rw [harith] at this
    simpa [traceFrom] using this

end TraceLemmas

section SelectLemmas

variable {ρ : Type} [DecidableEq ρ]

theorem selectFor_sublist (r : ρ) :
    ∀ (cs : List Citation) (tr : List (Option ρ)),
      (selectFor r cs tr).Sublist cs
  | [], _ => by simp [selectFor]
  | _ :: _, [] => by simp [selectFor]
  | c :: cs, t :: ts => by
    by_cases h : t = some r
    · simpa [selectFor, h] using (selectFor_sublist r cs ts).cons₂ c
    · simpa [selectFor, h] using (selectFor_sublist r cs ts).cons c

theorem mem_selectFor (r : ρ) (c : Citation) :
    ∀ (cs : List Citation) (tr : List (Option ρ)),
      c ∈ selectFor r cs tr ↔ ∃ j, cs.get? j = some c ∧ tr.get? j = some (some r)
  | [], tr => by simp [selectFor]
  | c0 :: cs, [] => by simp [selectFor]
  | c0 :: cs, t :: ts => by
    constructor
    · intro hm
      by_cases h : t = some r
      · rw [selectFor, if_pos h] at hm
        rcases List.mem_cons.mp hm with h0 | h1
        · exact ⟨0, by simp [h0], by simp [h]⟩
        · rcases (mem_selectFor r c cs ts).mp h1 with ⟨j, hj1, hj2⟩
          exact ⟨j + 1, by simpa using hj1, by simpa using hj2⟩
      · rw [selectFor, if_neg h] at hm
        rcases (mem_selectFor r c cs ts).mp hm with ⟨j, hj1, hj2⟩
        exact ⟨j + 1, by simpa using hj1, by simpa using hj2⟩
    · rintro ⟨j, hj1, hj2⟩
      cases j with
      | zero =>
        simp only [List.get?] at hj1 hj2
        cases hj1
        cases hj2
        rw [selectFor, if_pos rfl]
        exact List.mem_cons_self _ _
      | succ j =>
        have hmem := (mem_selectFor r c cs ts).mpr
          ⟨j, by simpa using hj1, by simpa using hj2⟩
        by_cases h : t = some r
        · rw [selectFor, if_pos h]
          exact List.mem_cons_of_mem _ hmem
        · rw [selectFor, if_neg h]
          exact hmem

end SelectLemmas

section CountLemmas

variable {α : Type} [DecidableEq α]

theorem countC_cons (c a : α) (l : List α) :
    countC (c :: l) a = (if c = a then 1 else 0) + countC l a := by
  by_cases h : c = a <;> simp [countC, h, Nat.add_comm]

theorem countC_pos_of_get? :
    ∀ (l : List α) (i : Nat) (c : α), l.get? i = some c → 1 ≤ countC l c
  | [], i, c, h => by simp at h
  | a :: l, 0, c, h => by
    simp only [List.get?] at h
    cases h
    simp [countC_cons]
  | a :: l, i + 1, c, h => by
    have := countC_pos_of_get? l i c (by simpa using h)
    rw [countC_cons]
    omega

theorem countC_two_of_get? :
    ∀ (l : List α) (i j : Nat) (c : α),
      l.get? i = some c → l.get? j = some c → i ≠ j → 2 ≤ countC l c
  | [], i, _, c, h1, _, _ => by simp at h1
  | _ :: _, 0, 0, _, _, _, hij => absurd rfl hij
  | a :: l, 0, j + 1, c, h1, h2, _ => by
    have ha : a = c := by simpa using h1
    subst ha
    have := countC_pos_of_get? l j a (by simpa using h2)
    rw [countC_cons]
    have hone : (if a = a then (1 : Nat) else 0) = 1 := by simp
    omega
  | a :: l, i + 1, 0, c, h1, h2, _ => by
    have ha : a = c := by simpa using h2
    subst ha
    have := countC_pos_of_get? l i a (by simpa using h1)
    rw [countC_cons]
    have hone : (if a = a then (1 : Nat) else 0) = 1 := by simp
    omega
  | a :: l, i + 1, j + 1, c, h1, h2, hij => by
    have := countC_two_of_get? l i j c (by simpa using h1) (by simpa using h2)
      (by omega)
    rw [countC_cons]
    omega

theorem get?_unique_of_countC_one (l : List α) (c : α) (i j : Nat)
    (hc : countC l c = 1) (h1 : l.get? i = some c) (h2 : l.get? j = some c) :
    i = j := by
  by_contra hij
  have := countC_two_of_get? l i j c h1 h2 hij
  omega

end CountLemmas

section MasterLemmas

variable {ρ : Type} [DecidableEq ρ] [PyBool ρ]

theorem stepState_resolutions (R : Resolvers ρ) (pos : Nat) (c : Citation)
    (st : EngineState ρ) :
    (stepState R pos c st).resolutions =
      groupingUpdate (stepResolution R pos c st) c st.resolutions := rfl

theorem runFrom_resolutions_some (R : Resolvers ρ) (r : ρ)
    (hr : PyBool.truthy r = true) :
    ∀ (cs : List Citation) (pos : Nat) (st : EngineState ρ) (l : List Citation),
      alookup st.resolutions r = some l →
      alookup (runFrom R cs pos st).resolutions r =
        some (l ++ selectFor r cs (traceFrom R cs pos st))
  | [], pos, st, l, hl => by simp [runFrom, traceFrom, selectFor, hl]
  | c :: cs, pos, st, l, hl => by
    have htr : traceFrom R (c :: cs) pos st =
        stepResolution R pos c st ::
          traceFrom R cs (pos + 1) (stepState R pos c st) := rfl
    have hrun : runFrom R (c :: cs) pos st =
        runFrom R cs (pos + 1) (stepState R pos c st) := rfl
    rw [hrun, htr]
    rcases hres : stepResolution R pos c st with _ | x
    · have hst : (stepState R pos c st).resolutions = st.resolutions := by
        simp [stepState_resolutions, groupingUpdate, hres]
      have := runFrom_resolutions_some R r hr cs (pos + 1) (stepState R pos c st) l
        (by rw [hst]; exact hl)
      rw [this, selectFor, if_neg (by simp)]
    · by_cases hxr : x = r
      · subst hxr
        have hst : (stepState R pos c st).resolutions = addTo st.resolutions x c := by
          simp [stepState_resolutions, groupingUpdate, hres, hr]
        have hlook : alookup (stepState R pos c st).resolutions x = some (l ++ [c]) := by
          rw [hst, alookup_addTo_self, hl]
          rfl
        have := runFrom_resolutions_some R x hr cs (pos + 1) (stepState R pos c st)
          (l ++ [c]) hlook
        rw [this, selectFor, if_pos rfl]
        simp
      · have hlook : alookup (stepState R pos c st).resolutions r = some l := by
          rw [stepState_resolutions]
          simp only [groupingUpdate, hres]
          by_cases ht : PyBool.truthy x = true
          · rw [if_pos ht,
              alookup_addTo_ne st.resolutions x r c (fun he => hxr he.symm)]
            exact hl
          · rw [if_neg ht]
            exact hl
        have := runFrom_resolutions_some R r hr cs (pos + 1) (stepState R pos c st)
          l hlook
        rw [this, selectFor, if_neg (by simp [hxr])]

theorem runFrom_resolutions_none (R : Resolvers ρ) (r : ρ)
    (hr : PyBool.truthy r = true) :
    ∀ (cs : List Citation) (pos : Nat) (st : EngineState ρ),
      alookup st.resolutions r = none →
      alookup (runFrom R cs pos st).resolutions r =
        (if selectFor r cs (traceFrom R cs pos st) = [] then none
         else some (selectFor r cs (traceFrom R cs pos st)))
  | [], pos, st, hl => by simp [runFrom, traceFrom, selectFor, hl]
  | c :: cs, pos, st, hl => by
    have htr : traceFrom R (c :: cs) pos st =
        stepResolution R pos c st ::
          traceFrom R cs (pos + 1) (stepState R pos c st) := rfl
    have hrun : runFrom R (c :: cs) pos st =
        runFrom R cs (pos + 1) (stepState R pos c st) := rfl
    rw [hrun, htr]
    rcases hres : stepResolution R pos c st with _ | x
    · have hst : (stepState R pos c st).resolutions = st.resolutions := by
        simp [stepState_resolutions, groupingUpdate, hres]
      have IH := runFrom_resolutions_none R r hr cs (pos + 1) (stepState R pos c st)
        (by rw [hst]; exact hl)
      have hsel : selectFor r (c :: cs)
          ((none : Option ρ) :: traceFrom R cs (pos + 1) (stepState R pos c st)) =
          selectFor r cs (traceFrom R cs (pos + 1) (stepState R pos c st)) := by
        simp [selectFor]
      rw [IH, hsel]
    · by_cases hxr : x = r
      · subst hxr
        have hst : (stepState R pos c st).resolutions = addTo st.resolutions x c := by
          simp [stepState_resolutions, groupingUpdate, hres, hr]
        have hlook : alookup (stepState R pos c st).resolutions x = some [c] := by
          rw [hst, alookup_addTo_self, hl]
          rfl
        have hsome := runFrom_resolutions_some R x hr cs (pos + 1)
          (stepState R pos c st) [c] hlook
        have hsel : selectFor x (c :: cs)
            (some x :: traceFrom R cs (pos + 1) (stepState R pos c st)) =
            c :: selectFor x cs (traceFrom R cs (pos + 1) (stepState R pos c st)) := by
          simp [selectFor]
        rw [hsome, hsel, if_neg (List.cons_ne_nil _ _)]
        simp
      · have hlook : alookup (stepState R pos c st).resolutions r = none := by
          rw [stepState_resolutions]
          simp only [groupingUpdate, hres]
          by_cases ht : PyBool.truthy x = true
          · rw [if_pos ht,
              alookup_addTo_ne st.resolutions x r c (fun he => hxr he.symm)]
            exact hl
          · rw [if_neg ht]
            exact hl
        have IH := runFrom_resolutions_none R r hr cs (pos + 1) (stepState R pos c st)
          hlook
        have hsel : selectFor r (c :: cs)
            (some x :: traceFrom R cs (pos + 1) (stepState R pos c st)) =
            selectFor r cs (traceFrom R cs (pos + 1) (stepState R pos c st)) := by
          simp [selectFor, hxr]
        rw [IH, hsel]

theorem runFrom_resolutions_falsy (R : Resolvers ρ) (r : ρ)
    (hr : PyBool.truthy r = false) :
    ∀ (cs : List Citation) (pos : Nat) (st : EngineState ρ),
      alookup (runFrom R cs pos st).resolutions r = alookup st.resolutions r
  | [], _, _ => rfl
  | c :: cs, pos, st => by
    have hrun : runFrom R (c :: cs) pos st =
        runFrom R cs (pos + 1) (stepState R pos c st) := rfl
    rw [hrun, runFrom_resolutions_falsy R r hr cs (pos + 1) (stepState R pos c st)]
    rw [stepState_resolutions]
    rcases hres : stepResolution R pos c st with _ | x
    · simp [groupingUpdate]
    · simp only [groupingUpdate]
      by_cases ht : PyBool.truthy x = true
      · rw [if_pos ht]
        have hxr : r ≠ x := by
          intro he
          rw [he, ht] at hr
          exact Bool.noConfusion hr
        exact alookup_addTo_ne st.resolutions x r c hxr
      · rw [if_neg ht]

theorem resolve_alookup_char (R : Resolvers ρ) (cs : List Citation) (r : ρ)
    (l : List Citation) (h : alookup (resolve_citations R cs) r = some l) :
    PyBool.truthy r = true ∧ l = selectFor r cs (resolveTrace R cs) := by
  rcases ht : PyBool.truthy r with _ | _
  · rw [resolve_citations, runEngine,
      runFrom_resolutions_falsy R r ht cs 0 initState] at h
    simp [initState, alookup] at h
  · have h0 : alookup (@initState ρ).resolutions r = none := rfl
    rw [resolve_citations, runEngine,
      runFrom_resolutions_none R r ht cs 0 initState h0] at h
    refine ⟨rfl, ?_⟩
    by_cases hs : selectFor r cs (traceFrom R cs 0 initState) = []
    · rw [if_pos hs] at h
      exact absurd h (by simp)
    · rw [if_neg hs] at h
      exact (Option.some_inj.mp h).symm

theorem resolve_alookup_of_selectFor (R : Resolvers ρ) (cs : List Citation)
    (r : ρ) (hr : PyBool.truthy r = true)
    (hne : selectFor r cs (resolveTrace R cs) ≠ []) :
    alookup (resolve_citations R cs) r =
      some (selectFor r cs (resolveTrace R cs)) := by
  have h0 : alookup (@initState ρ).resolutions r = none := rfl
  have htr : resolveTrace R cs = traceFrom R cs 0 initState := rfl
  rw [resolve_citations, runEngine,
    runFrom_resolutions_none R r hr cs 0 initState h0, ← htr]
  rw [if_neg hne]

end MasterLemmas

section TableLemmas

variable {ρ : Type} [DecidableEq ρ] [PyBool ρ]

theorem stepState_table (R : Resolvers ρ) (pos : Nat) (c : Citation)
    (st : EngineState ρ) :
    (stepState R pos c st).resolved_full_cites =
      tableUpdate R pos c st.resolved_full_cites := rfl

theorem runFrom_table_skip (R : Resolvers ρ) (d : FullData) :
    ∀ (cs : List Citation) (pos : Nat) (st : EngineState ρ),
      countC cs (Citation.full d) = 0 →
      alookup (runFrom R cs pos st).resolved_full_cites d =
        alookup st.resolved_full_cites d
  | [], _, _, _ => rfl
  | c :: cs, pos, st, h => by
    rw [countC_cons] at h
    have hc : c ≠ Citation.full d := by
      intro he
      rw [if_pos he] at h
      omega
    have h0 : countC cs (Citation.full d) = 0 := by
      by_cases he : c = Citation.full d
      · exact absurd he hc
      · rw [if_neg he] at h
        omega
    have hrun : runFrom R (c :: cs) pos st =
        runFrom R cs (pos + 1) (stepState R pos c st) := rfl
    rw [hrun, runFrom_table_skip R d cs (pos + 1) (stepState R pos c st) h0,
      stepState_table]
    cases c with
    | full d0 =>
      have hd : d ≠ d0 := by
        intro he
        exact hc (by rw [he])
      exact alookup_dictInsert_ne st.resolved_full_cites d0 d (R.full pos d0) hd
    | short d0 => rfl
    | supra d0 => rfl
    | idc d0 => rfl
    | other d0 => rfl

theorem runFrom_table_records (R : Resolvers ρ) (d : FullData) :
    ∀ (cs : List Citation) (pos : Nat) (st : EngineState ρ) (i : Nat),
      cs.get? i = some (Citation.full d) → countC cs (Citation.full d) = 1 →
      alookup (runFrom R cs pos st).resolved_full_cites d =
        some (R.full (pos + i) d)
  | [], _, _, i, h, _ => by simp at h
  | c :: cs, pos, st, 0, h, hc => by
    simp only [List.get?] at h
    cases h
    rw [countC_cons, if_pos rfl] at hc
    have h0 : countC cs (Citation.full d) = 0 := by omega
    have hrun : runFrom R (Citation.full d :: cs) pos st =
        runFrom R cs (pos + 1) (stepState R pos (Citation.full d) st) := rfl
    rw [hrun,
      runFrom_table_skip R d cs (pos + 1) (stepState R pos (Citation.full d) st) h0,
      stepState_table]
    exact alookup_dictInsert_self st.resolved_full_cites d (R.full pos d)
  | c :: cs, pos, st, i + 1, h, hc => by
    have hc0 : c ≠ Citation.full d := by
      intro he
      have h0 : (c :: cs).get? 0 = some (Citation.full d) := by simp [he]
      have := countC_two_of_get? (c :: cs) 0 (i + 1) (Citation.full d) h0 h
        (by omega)
      omega
    have hcs : countC cs (Citation.full d) = 1 := by
      rw [countC_cons, if_neg hc0] at hc
      omega
    have harith : pos + 1 + i = pos + (i + 1) := by omega
    have := runFrom_table_records R d cs (pos + 1) (stepState R pos c st) i
      (by simpa using h) hcs
    rw [harith] at this
    exact this

end TableLemmas

section KeysLemmas

variable {ρ : Type} [DecidableEq ρ]

theorem keyMem_iff_mem_keys (g : List (ρ × List Citation)) (k : ρ) :
    keyMem g k = true ↔ k ∈ keysOf g := by
  simp only [keyMem, keysOf, List.any_eq_true, List.mem_map,
    decide_eq_true_eq]

theorem keysOf_addTo (g : List (ρ × List Citation)) (r : ρ) (c : Citation) :
    keysOf (addTo g r c) =
      if keyMem g r then keysOf g else keysOf g ++ [r] := by
  unfold addTo
  by_cases hm : keyMem g r = true
  · rw [if_pos hm, if_pos hm]
    simp only [keysOf, List.map_map]
    refine List.map_congr_left ?_
    intro p _
    by_cases hp : p.1 = r
    · simp [Function.comp, hp]
    · simp [Function.comp, hp]
  · rw [if_neg hm, if_neg hm]
    simp [keysOf]

theorem keysOf_nodup_addTo (g : List (ρ × List Citation)) (r : ρ) (c : Citation)
    (h : (keysOf g).Nodup) : (keysOf (addTo g r c)).Nodup := by
  rw [keysOf_addTo]
  by_cases hm : keyMem g r = true
  · rw [if_pos hm]
    exact h
  · rw [if_neg hm]
    have hr : r ∉ keysOf g := by
      intro hc
      exact hm ((keyMem_iff_mem_keys g r).mpr hc)
    simp [List.nodup_append, h, hr]

theorem runFrom_keys_nodup [PyBool ρ] (R : Resolvers ρ) :
    ∀ (cs : List Citation) (pos : Nat) (st : EngineState ρ),
      (keysOf st.resolutions).Nodup →
      (keysOf (runFrom R cs pos st).resolutions).Nodup
  | [], _, _, h => h
  | c :: cs, pos, st, h => by
    have hrun : runFrom R (c :: cs) pos st =
        runFrom R cs (pos + 1) (stepState R pos c st) := rfl
    rw [hrun]
    refine runFrom_keys_nodup R cs (pos + 1) (stepState R pos c st) ?_
    rw [stepState_resolutions]
    rcases stepResolution R pos c st with _ | x
    · exact h
    · simp only [groupingUpdate]
      by_cases ht : PyBool.truthy x = true
      · rw [if_pos ht]
        exact keysOf_nodup_addTo st.resolutions x c h
      · rw [if_neg ht]
        exact h

theorem alookup_of_mem_nodup (g : List (ρ × List Citation))
    (p : ρ × List Citation) (hmem : p ∈ g) (hnd : (keysOf g).Nodup) :
    alookup g p.1 = some p.2 := by
  induction g with
  | nil => exact absurd hmem (List.not_mem_nil p)
  | cons q t ih =>
    rcases List.mem_cons.mp hmem with he | ht
    · subst he
      simp [alookup]
    · have hq : q.1 ∉ keysOf t := by
        have := hnd
        simp only [keysOf, List.map_cons, List.nodup_cons] at this
        exact fun hc => this.1 (by simpa [keysOf] using hc)
      have hne : q.1 ≠ p.1 := by
        intro he
        exact hq (he ▸ List.mem_map_of_mem Prod.fst ht)
      have hndt : (keysOf t).Nodup := by
        have := hnd
        simp only [keysOf, List.map_cons, List.nodup_cons] at this
        exact this.2
      simp only [alookup, hne, if_false]
      exact ih ht hndt

theorem filter_length_one_of_key (x : ρ × List Citation) :
    ∀ (g : List (ρ × List Citation)), x ∈ g → (keysOf g).Nodup →
      ∀ (P : ρ × List Citation → Bool), (∀ p ∈ g, P p = true ↔ p = x) →
      (g.filter P).length = 1
  | [], hmem, _, _, _ => absurd hmem (List.not_mem_nil x)
  | q :: t, hmem, hnd, P, hiff => by
    have hndt : (keysOf t).Nodup := by
      have := hnd
      simp only [keysOf, List.map_cons, List.nodup_cons] at this
      exact this.2
    have hq1 : q.1 ∉ keysOf t := by
      have := hnd
      simp only [keysOf, List.map_cons, List.nodup_cons] at this
      exact fun hc => this.1 (by simpa [keysOf] using hc)
    by_cases he : q = x
    · subst he
      have hPq : P q = true := (hiff q (List.mem_cons_self q t)).mpr rfl
      have hfilt : t.filter P = [] := by
        rw [List.filter_eq_nil_iff]
        intro p hp hPp
        have hpx : p = q := (hiff p (List.mem_cons_of_mem q hp)).mp hPp
        subst hpx
        exact hq1 (List.mem_map_of_mem Prod.fst hp)
      rw [List.filter_cons_of_pos hPq, hfilt]
      rfl
    · have hxt : x ∈ t := by
        rcases List.mem_cons.mp hmem with h1 | h1
        · exact absurd h1 (fun hh => he hh.symm)
        · exact h1
      have hPq : ¬P q = true := fun hc => he ((hiff q (List.mem_cons_self q t)).mp hc)
      rw [List.filter_cons_of_neg (by simpa using hPq)]
      exact filter_length_one_of_key x t hxt hndt P
        (fun p hp => hiff p (List.mem_cons_of_mem q hp))

end KeysLemmas

section DedupLemmas

variable {α β : Type} [DecidableEq α] [DecidableEq β]

theorem dedup_singleton_iff (l : List α) (a : α) :
    l.dedup = [a] ↔ a ∈ l ∧ ∀ b ∈ l, b = a := by
  constructor
  · intro h
    refine ⟨List.mem_dedup.mp (by rw [h]; exact List.mem_cons_self a []), ?_⟩
    intro b hb
    have : b ∈ l.dedup := List.mem_dedup.mpr hb
    rw [h] at this
    simpa using this
  · rintro ⟨ha, hall⟩
    have hnd : l.dedup.Nodup := l.nodup_dedup
    have hmem : a ∈ l.dedup := List.mem_dedup.mpr ha
    have hall2 : ∀ b ∈ l.dedup, b = a := fun b hb => hall b (List.mem_dedup.mp hb)
    rcases hd : l.dedup with _ | ⟨x, t⟩
    · rw [hd] at hmem
      exact absurd hmem (List.not_mem_nil a)
    · rw [hd] at hall2 hnd
      have hx : x = a := hall2 x (List.mem_cons_self x t)
      subst hx
      rcases t with _ | ⟨y, t2⟩
      · rfl
      · have hy : y = x := hall2 y (by simp)
        subst hy
        simp at hnd

theorem uniqueRes_iff_dedup_length (l : List α) :
    uniqueRes l ↔ l.dedup.length = 1 := by
  constructor
  · rintro ⟨r, hr, hall⟩
    rw [(dedup_singleton_iff l r).mpr ⟨hr, hall⟩]
    rfl
  · intro h
    rcases List.length_eq_one.mp h with ⟨a, ha⟩
    rcases (dedup_singleton_iff l a).mp ha with ⟨h1, h2⟩
    exact ⟨a, h1, h2⟩

theorem dedup_map_inj (g : α → β) (hg : Function.Injective g) :
    ∀ l : List α, (l.map g).dedup = l.dedup.map g
  | [] => rfl
  | a :: l => by
    by_cases h : a ∈ l
    · rw [List.map_cons, List.dedup_cons_of_mem (List.mem_map_of_mem g h),
        List.dedup_cons_of_mem h, dedup_map_inj g hg l]
    · have hga : g a ∉ l.map g := by
        intro hc
        rcases List.mem_map.mp hc with ⟨b, hb, he⟩
        exact h (hg he ▸ hb)
      rw [List.map_cons, List.dedup_cons_of_not_mem hga,
        List.dedup_cons_of_not_mem h, List.map_cons, dedup_map_inj g hg l]

end DedupLemmas

section MatcherLemmas

variable {ρ : Type} [DecidableEq ρ]

theorem fbm_eq_some_iff_dedup (l : List (FullData × ρ)) (g : String) (r : ρ) :
    filter_by_matching_antecedent l g = some r ↔
      ((l.filter (fun p => matcherHit (strip_punct g) p.1)).map Prod.snd).dedup
        = [r] := by
  show (if ((l.filter (fun p => matcherHit (strip_punct g) p.1)).map
      Prod.snd).dedup.length = 1 then
      ((l.filter (fun p => matcherHit (strip_punct g) p.1)).map
        Prod.snd).dedup.head? else none) = some r ↔ _
  by_cases h : ((l.filter (fun p => matcherHit (strip_punct g) p.1)).map
      Prod.snd).dedup.length = 1
  · rw [if_pos h]
    rcases List.length_eq_one.mp h with ⟨a, ha⟩
    rw [ha]
    simp
  · rw [if_neg h]
    constructor
    · intro hc
      exact absurd hc (by simp)
    · intro hc
      rw [hc] at h
      exact absurd rfl h

omit [DecidableEq ρ] in
theorem mem_filter_map_snd_iff (l : List (FullData × ρ)) (P : FullData → Bool)
    (x : ρ) :
    x ∈ (l.filter (fun p => P p.1)).map Prod.snd ↔
      ∃ p, p ∈ l ∧ p.2 = x ∧ P p.1 = true := by
  simp only [List.mem_map, List.mem_filter]
  constructor
  · rintro ⟨p, ⟨hp, hP⟩, he⟩
    exact ⟨p, hp, he, hP⟩
  · rintro ⟨p, hp, he, hP⟩
    exact ⟨p, ⟨hp, hP⟩, he⟩

theorem fbm_eq_some_iff (l : List (FullData × ρ)) (g : String) (r : ρ) :
    filter_by_matching_antecedent l g = some r ↔
      (∃ p, p ∈ l ∧ p.2 = r ∧ matcherHit (strip_punct g) p.1 = true) ∧
      (∀ p, p ∈ l → matcherHit (strip_punct g) p.1 = true → p.2 = r) := by
  rw [fbm_eq_some_iff_dedup, dedup_singleton_iff]
  constructor
  · rintro ⟨h1, h2⟩
    refine ⟨(mem_filter_map_snd_iff l _ r).mp h1, ?_⟩
    intro p hp hhit
    exact h2 p.2 ((mem_filter_map_snd_iff l _ p.2).mpr ⟨p, hp, rfl, hhit⟩)
  · rintro ⟨⟨p, hp, hpr, hph⟩, hall⟩
    refine ⟨(mem_filter_map_snd_iff l _ r).mpr ⟨p, hp, hpr, hph⟩, ?_⟩
    intro b hb
    rcases (mem_filter_map_snd_iff l _ b).mp hb with ⟨q, hq, hqb, hqh⟩
    rw [← hqb]
    exact hall q hq hqh

theorem fbm_none_of_ambiguous (l : List (FullData × ρ)) (g : String)
    (p q : FullData × ρ) (hp : p ∈ l) (hq : q ∈ l)
    (hph : matcherHit (strip_punct g) p.1 = true)
    (hqh : matcherHit (strip_punct g) q.1 = true) (hne : p.2 ≠ q.2) :
    filter_by_matching_antecedent l g = none := by
  rcases hf : filter_by_matching_antecedent l g with _ | r
  · rfl
  · rcases (fbm_eq_some_iff l g r).mp hf with ⟨-, hall⟩
    exact absurd ((hall p hp hph).trans (hall q hq hqh).symm) hne

theorem matcherHit_case (ag : String) (fd : FullData)
    (h : matcherHit ag fd = true) : fd.kind = FullKind.caseKind := by
  have := (Bool.and_eq_true _ _).mp h
  exact of_decide_eq_true this.1

theorem fbm_case_source (l : List (FullData × ρ)) (g : String) (r : ρ)
    (h : filter_by_matching_antecedent l g = some r) :
    ∃ p, p ∈ l ∧ p.2 = r ∧ p.1.kind = FullKind.caseKind := by
  rcases ((fbm_eq_some_iff l g r).mp h).1 with ⟨p, hp, hpr, hph⟩
  exact ⟨p, hp, hpr, matcherHit_case _ _ hph⟩

theorem fbm_mem_snd (l : List (FullData × ρ)) (g : String) (r : ρ)
    (h : filter_by_matching_antecedent l g = some r) :
    r ∈ l.map Prod.snd := by
  rcases ((fbm_eq_some_iff l g r).mp h).1 with ⟨p, hp, hpr, -⟩
  exact List.mem_map.mpr ⟨p, hp, hpr⟩

end MatcherLemmas

section ShortLemmas

variable {ρ : Type} [DecidableEq ρ]

theorem shortMatchesFull_case (sc : ShortData) (fd : FullData)
    (h : shortMatchesFull sc fd = true) : fd.kind = FullKind.caseKind := by
  have h1 := (Bool.and_eq_true _ _).mp h
  have h2 := (Bool.and_eq_true _ _).mp h1.1
  exact of_decide_eq_true h2.1

theorem resolve_shortcase_eq (sc : ShortData) (table : List (FullData × ρ)) :
    resolve_shortcase_citation sc table =
      (if ((shortCandidates sc table).map Prod.snd).dedup.length = 1 then
        ((shortCandidates sc table).map Prod.snd).head?
      else if pyStrTruthy sc.metadata.antecedent_guess then
        filter_by_matching_antecedent (shortCandidates sc table)
          (sc.metadata.antecedent_guess.getD "")
      else none) := rfl

theorem resolve_shortcase_unique (sc : ShortData) (table : List (FullData × ρ))
    (r : ρ) (hr : r ∈ (shortCandidates sc table).map Prod.snd)
    (hall : ∀ x ∈ (shortCandidates sc table).map Prod.snd, x = r) :
    resolve_shortcase_citation sc table = some r := by
  have hd : ((shortCandidates sc table).map Prod.snd).dedup = [r] :=
    (dedup_singleton_iff _ r).mpr ⟨hr, hall⟩
  rw [resolve_shortcase_eq, if_pos (by rw [hd]; rfl)]
  rcases hm : (shortCandidates sc table).map Prod.snd with _ | ⟨x, t⟩
  · rw [hm] at hr
    exact absurd hr (List.not_mem_nil r)
  · have hx : x = r := by
      refine hall x ?_
      rw [hm]
      exact List.mem_cons_self x t
    simp [hx]

theorem resolve_shortcase_not_unique_guess (sc : ShortData)
    (table : List (FullData × ρ))
    (hnu : ¬uniqueRes ((shortCandidates sc table).map Prod.snd)) (gs : String)
    (hg : sc.metadata.antecedent_guess = some gs)
    (ht : pyStrTruthy sc.metadata.antecedent_guess = true) :
    resolve_shortcase_citation sc table =
      filter_by_matching_antecedent (shortCandidates sc table) gs := by
  have hlen : ¬((shortCandidates sc table).map Prod.snd).dedup.length = 1 :=
    fun hc => hnu ((uniqueRes_iff_dedup_length _).mpr hc)
  rw [resolve_shortcase_eq, if_neg hlen, if_pos ht, hg]
  rfl

theorem resolve_shortcase_not_unique_noguess (sc : ShortData)
    (table : List (FullData × ρ))
    (hnu : ¬uniqueRes ((shortCandidates sc table).map Prod.snd))
    (ht : pyStrTruthy sc.metadata.antecedent_guess = false) :
    resolve_shortcase_citation sc table = none := by
  have hlen : ¬((shortCandidates sc table).map Prod.snd).dedup.length = 1 :=
    fun hc => hnu ((uniqueRes_iff_dedup_length _).mpr hc)
  rw [resolve_shortcase_eq, if_neg hlen, if_neg (by simp [ht])]

theorem resolve_shortcase_case_source (sc : ShortData)
    (table : List (FullData × ρ)) (r : ρ)
    (h : resolve_shortcase_citation sc table = some r) :
    ∃ p, p ∈ table ∧ p.2 = r ∧ p.1.kind = FullKind.caseKind := by
  rw [resolve_shortcase_eq] at h
  by_cases h1 : ((shortCandidates sc table).map Prod.snd).dedup.length = 1
  · rw [if_pos h1] at h
    have hr : r ∈ (shortCandidates sc table).map Prod.snd := by
      rcases hm : (shortCandidates sc table).map Prod.snd with _ | ⟨x, t⟩
      · rw [hm] at h
        exact absurd h (by simp)
      · rw [hm] at h
        have hx : x = r := by simpa using h
        rw [← hx]
        exact List.mem_cons_self x t
    obtain ⟨p, hp, hpr, hph⟩ :=
      (mem_filter_map_snd_iff table (shortMatchesFull sc) r).mp hr
    exact ⟨p, hp, hpr, shortMatchesFull_case sc p.1 hph⟩
  · rw [if_neg h1] at h
    by_cases h2 : pyStrTruthy sc.metadata.antecedent_guess = true
    · rw [if_pos h2] at h
      rcases fbm_case_source _ _ _ h with ⟨p, hp, hpr, hpk⟩
      exact ⟨p, List.mem_of_mem_filter hp, hpr, hpk⟩
    · rw [if_neg h2] at h
      exact absurd h (by simp)

theorem resolve_supra_noguess (sup : SupraData) (table : List (FullData × ρ))
    (ht : pyStrTruthy sup.metadata.antecedent_guess = false) :
    resolve_supra_citation sup table = none := by
  unfold resolve_supra_citation
  rw [if_pos (by simp [ht])]

theorem resolve_supra_guess (sup : SupraData) (table : List (FullData × ρ))
    (gs : String) (hg : sup.metadata.antecedent_guess = some gs)
    (ht : pyStrTruthy sup.metadata.antecedent_guess = true) :
    resolve_supra_citation sup table =
      filter_by_matching_antecedent table gs := by
  unfold resolve_supra_citation
  rw [if_neg (by simp [ht]), hg]
  rfl

theorem resolve_supra_case_source (sup : SupraData)
    (table : List (FullData × ρ)) (r : ρ)
    (h : resolve_supra_citation sup table = some r) :
    ∃ p, p ∈ table ∧ p.2 = r ∧ p.1.kind = FullKind.caseKind := by
  unfold resolve_supra_citation at h
  by_cases ht : pyStrTruthy sup.metadata.antecedent_guess = true
  · rw [if_neg (by simp [ht])] at h
    exact fbm_case_source _ _ _ h
  · rw [if_pos (by simp at ht ⊢; exact ht)] at h
    exact absurd h (by simp)

end ShortLemmas

section IdChain

variable {ρ : Type} [DecidableEq ρ] [PyBool ρ]

theorem traceFrom_id_chain (R : Resolvers ρ)
    (hid : R.idr = fun d l => resolve_id_citation d l) :
    ∀ (cs : List Citation) (pos : Nat) (st : EngineState ρ) (i : Nat) (t : IdData),
      cs.get? (i + 1) = some (Citation.idc t) →
      (traceFrom R cs pos st).get? (i + 1) = (traceFrom R cs pos st).get? i
  | [], _, _, i, t, h => by simp at h
  | c :: cs, pos, st, 0, t, h => by
    rcases cs with _ | ⟨c1, rest⟩
    · simp at h
    · have hc1 : c1 = Citation.idc t := by simpa using h
      subst hc1
      have h1 : traceFrom R (c :: Citation.idc t :: rest) pos st =
          stepResolution R pos c st ::
            R.idr t (stepResolution R pos c st) ::
              traceFrom R rest (pos + 2)
                (stepState R (pos + 1) (Citation.idc t) (stepState R pos c st)) := rfl
      rw [h1, hid]
      rfl
  | c :: cs, pos, st, i + 1, t, h => by
    have := traceFrom_id_chain R hid cs (pos + 1) (stepState R pos c st) i t
      (by simpa using h)
    simpa [traceFrom] using this

end IdChain

section ShiftLemmas

theorem posShift_pos (k : Nat) (r : Resource) :
    (posShift k r).pos = if k ≤ r.pos then r.pos + 1 else r.pos := by
  unfold posShift
  split <;> rfl

theorem posShift_citation (k : Nat) (r : Resource) :
    (posShift k r).citation = r.citation := by
  unfold posShift
  split <;> rfl

theorem posShift_injective (k : Nat) : Function.Injective (posShift k) := by
  intro r1 r2 h
  have hc : r1.citation = r2.citation := by
    rw [← posShift_citation k r1, ← posShift_citation k r2, h]
  have hp : r1.pos = r2.pos := by
    have hh := congrArg Resource.pos h
    rw [posShift_pos, posShift_pos] at hh
    by_cases h1 : k ≤ r1.pos <;> by_cases h2 : k ≤ r2.pos <;>
      simp [h1, h2] at hh <;> omega
  cases r1
  cases r2
  simp_all

theorem posShift_id_of_lt (k : Nat) (r : Resource) (h : r.pos < k) :
    posShift k r = r := by
  unfold posShift
  rw [if_neg (by omega)]

theorem posShift_of_le (k : Nat) (r : Resource) (h : k ≤ r.pos) :
    posShift k r = ⟨r.pos + 1, r.citation⟩ := by
  unfold posShift
  rw [if_pos h]

theorem mapVals_id_of {α β : Type} (g : β → β) (l : List (α × β))
    (h : ∀ p ∈ l, g p.2 = p.2) : mapVals g l = l := by
  induction l with
  | nil => rfl
  | cons p t ih =>
    show (p.1, g p.2) :: mapVals g t = p :: t
    rw [h p (List.mem_cons_self p t), Prod.mk.eta,
      ih (fun q hq => h q (List.mem_cons_of_mem p hq))]

theorem keyMem_mapVals {α β γ : Type} [DecidableEq α] (g : β → γ)
    (l : List (α × β)) (k : α) : keyMem (mapVals g l) k = keyMem l k := by
  induction l with
  | nil => rfl
  | cons p t ih =>
    simp only [keyMem, mapVals, List.map_cons, List.any_cons] at ih ⊢
    rw [ih]

theorem dictInsert_mapVals {α β γ : Type} [DecidableEq α] (g : β → γ)
    (l : List (α × β)) (k : α) (v : β) :
    dictInsert (mapVals g l) k (g v) = mapVals g (dictInsert l k v) := by
  unfold dictInsert
  rw [keyMem_mapVals]
  by_cases hm : keyMem l k = true
  · rw [if_pos hm, if_pos hm]
    unfold mapVals
    rw [List.map_map, List.map_map]
    refine List.map_congr_left ?_
    intro p _
    by_cases hp : p.1 = k
    · simp [Function.comp, hp]
    · simp [Function.comp, hp]
  · rw [if_neg hm, if_neg hm]
    unfold mapVals
    rw [List.map_append]
    rfl

theorem filter_mapVals {α β γ : Type} (g : β → γ) (P : α → Bool)
    (l : List (α × β)) :
    (mapVals g l).filter (fun p => P p.1) =
      mapVals g (l.filter (fun p => P p.1)) := by
  induction l with
  | nil => rfl
  | cons p t ih =>
    simp only [mapVals, List.map_cons] at ih ⊢
    rw [List.filter_cons, List.filter_cons]
    by_cases hp : P p.1 = true <;> simp [hp, ih]

theorem map_snd_mapVals {α β γ : Type} (g : β → γ) (l : List (α × β)) :
    (mapVals g l).map Prod.snd = (l.map Prod.snd).map g := by
  unfold mapVals
  rw [List.map_map, List.map_map]
  rfl

theorem fbm_unfold {ρ : Type} [DecidableEq ρ] (l : List (FullData × ρ))
    (s : String) :
    filter_by_matching_antecedent l s =
      (if ((l.filter (fun p => matcherHit (strip_punct s) p.1)).map
          Prod.snd).dedup.length = 1 then
        ((l.filter (fun p => matcherHit (strip_punct s) p.1)).map
          Prod.snd).dedup.head?
      else none) := rfl

theorem fbm_mapVals {ρ σ : Type} [DecidableEq ρ] [DecidableEq σ] (g : ρ → σ)
    (hg : Function.Injective g) (l : List (FullData × ρ)) (s : String) :
    filter_by_matching_antecedent (mapVals g l) s =
      Option.map g (filter_by_matching_antecedent l s) := by
  rw [fbm_unfold, fbm_unfold, filter_mapVals, map_snd_mapVals,
    dedup_map_inj g hg, List.length_map, List.head?_map,
    apply_ite (Option.map g)]
  rfl

theorem shortCandidates_mapVals {ρ σ : Type} (g : ρ → σ) (sc : ShortData)
    (table : List (FullData × ρ)) :
    shortCandidates sc (mapVals g table) = mapVals g (shortCandidates sc table) := by
  unfold shortCandidates
  exact filter_mapVals g _ table

theorem resolve_shortcase_mapVals {ρ σ : Type} [DecidableEq ρ] [DecidableEq σ]
    (g : ρ → σ) (hg : Function.Injective g) (sc : ShortData)
    (table : List (FullData × ρ)) :
    resolve_shortcase_citation sc (mapVals g table) =
      Option.map g (resolve_shortcase_citation sc table) := by
  rw [resolve_shortcase_eq, resolve_shortcase_eq, shortCandidates_mapVals,
    map_snd_mapVals, dedup_map_inj g hg, List.length_map, List.head?_map,
    fbm_mapVals g hg, apply_ite (Option.map g), apply_ite (Option.map g)]
  rfl

theorem resolve_supra_mapVals {ρ σ : Type} [DecidableEq ρ] [DecidableEq σ]
    (g : ρ → σ) (hg : Function.Injective g) (sup : SupraData)
    (table : List (FullData × ρ)) :
    resolve_supra_citation sup (mapVals g table) =
      Option.map g (resolve_supra_citation sup table) := by
  unfold resolve_supra_citation
  by_cases ht : pyStrTruthy sup.metadata.antecedent_guess = true
  · rw [if_neg (by simp [ht]), if_neg (by simp [ht]), fbm_mapVals g hg]
  · have ht' : pyStrTruthy sup.metadata.antecedent_guess = false := by
      revert ht
      cases pyStrTruthy sup.metadata.antecedent_guess <;> simp
    rw [if_pos (by simp [ht']), if_pos (by simp [ht'])]
    rfl

end ShiftLemmas

section BoundLemmas

theorem stepState_bound (pos : Nat) (c : Citation) (st : EngineState Resource)
    (h : stBound pos st) :
    stBound (pos + 1) (stepState defaultResolvers pos c st) := by
  cases c with
  | full d =>
    constructor
    · intro p hp
      rcases mem_dictInsert st.resolved_full_cites d
          (resolve_full_citation pos d) p hp with he | hmem
      · rw [he]
        show pos < pos + 1
        omega
      · have := h.1 p hmem
        omega
    · intro r hr
      have hlast : (stepState defaultResolvers pos (Citation.full d)
          st).last_resolution = some (resolve_full_citation pos d) := rfl
      rw [hlast] at hr
      rw [← Option.some_inj.mp hr]
      show pos < pos + 1
      omega
  | short d =>
    constructor
    · intro p hp
      have := h.1 p hp
      omega
    · intro r hr
      have hr2 : resolve_shortcase_citation d st.resolved_full_cites = some r := hr
      rcases resolve_shortcase_case_source d st.resolved_full_cites r hr2 with
        ⟨p, hp, hpr, -⟩
      have := h.1 p hp
      rw [hpr] at this
      omega
  | supra d =>
    constructor
    · intro p hp
      have := h.1 p hp
      omega
    · intro r hr
      have hr2 : resolve_supra_citation d st.resolved_full_cites = some r := hr
      rcases resolve_supra_case_source d st.resolved_full_cites r hr2 with
        ⟨p, hp, hpr, -⟩
      have := h.1 p hp
      rw [hpr] at this
      omega
  | idc d =>
    constructor
    · intro p hp
      have := h.1 p hp
      omega
    · intro r hr
      have hr2 : st.last_resolution = some r := hr
      have := h.2 r hr2
      omega
  | other d =>
    constructor
    · intro p hp
      have := h.1 p hp
      omega
    · intro r hr
      exact absurd hr (by simp [stepState, stepResolution])

theorem traceFrom_bound :
    ∀ (cs : List Citation) (pos : Nat) (st : EngineState Resource) (j : Nat)
      (r : Resource), stBound pos st →
      (traceFrom defaultResolvers cs pos st).get? j = some (some r) →
      r.pos < pos + j + 1
  | [], _, _, j, _, _, h => by simp [traceFrom] at h
  | c :: cs, pos, st, 0, r, hb, h => by
    have hres : stepResolution defaultResolvers pos c st = some r := by
      simpa [traceFrom] using h
    have hlast : (stepState defaultResolvers pos c st).last_resolution = some r :=
      hres
    have := (stepState_bound pos c st hb).2 r hlast
    omega
  | c :: cs, pos, st, j + 1, r, hb, h => by
    have := traceFrom_bound cs (pos + 1) (stepState defaultResolvers pos c st)
      j r (stepState_bound pos c st hb) (by simpa [traceFrom] using h)
    omega

theorem runFrom_bound :
    ∀ (cs : List Citation) (pos : Nat) (st : EngineState Resource),
      stBound pos st →
      stBound (pos + cs.length) (runFrom defaultResolvers cs pos st)
  | [], pos, st, h => by simpa [runFrom] using h
  | c :: cs, pos, st, h => by
    have := runFrom_bound cs (pos + 1) (stepState defaultResolvers pos c st)
      (stepState_bound pos c st h)
    have harith : pos + 1 + cs.length = pos + (c :: cs).length := by
      simp [List.length_cons]
      omega
    rw [harith] at this
    exact this

end BoundLemmas

section ShiftMain

theorem c1_trace_shift (k : Nat) :
    ∀ (post : List Citation) (pos : Nat) (st1 st2 : EngineState Resource),
      k ≤ pos →
      st1.resolved_full_cites = mapVals (posShift k) st2.resolved_full_cites →
      ∀ (j : Nat) (c : Citation), post.get? j = some c →
        isIdCitation c = false →
      (traceFrom defaultResolvers post (pos + 1) st1).get? j =
        ((traceFrom defaultResolvers post pos st2).get? j).map
          (Option.map (posShift k))
  | [], _, _, _, _, _, _, _, h, _ => by simp at h
  | c0 :: post, pos, st1, st2, hk, hrel, 0, c, h, hni => by
    have hc : c0 = c := by simpa using h
    subst hc
    show some (stepResolution defaultResolvers (pos + 1) c0 st1) =
      (some (stepResolution defaultResolvers pos c0 st2)).map
        (Option.map (posShift k))
    cases c0 with
    | full d =>
      show some (some (resolve_full_citation (pos + 1) d)) =
        some (Option.map (posShift k) (some (resolve_full_citation pos d)))
      have hg : posShift k (resolve_full_citation pos d) =
          resolve_full_citation (pos + 1) d := by
        rw [posShift_of_le k _ hk]
        rfl
      rw [Option.map_some', hg]
    | short d =>
      show some (resolve_shortcase_citation d st1.resolved_full_cites) =
        some (Option.map (posShift k)
          (resolve_shortcase_citation d st2.resolved_full_cites))
      rw [hrel, resolve_shortcase_mapVals (posShift k) (posShift_injective k)]
    | supra d =>
      show some (resolve_supra_citation d st1.resolved_full_cites) =
        some (Option.map (posShift k)
          (resolve_supra_citation d st2.resolved_full_cites))
      rw [hrel, resolve_supra_mapVals (posShift k) (posShift_injective k)]
    | idc d => exact absurd hni (by simp [isIdCitation])
    | other d => rfl
  | c0 :: post, pos, st1, st2, hk, hrel, j + 1, c, h, hni => by
    have hrel' : (stepState defaultResolvers (pos + 1) c0 st1).resolved_full_cites =
        mapVals (posShift k)
          (stepState defaultResolvers pos c0 st2).resolved_full_cites := by
      rw [stepState_table, stepState_table]
      cases c0 with
      | full d =>
        show dictInsert st1.resolved_full_cites d
            (resolve_full_citation (pos + 1) d) =
          mapVals (posShift k) (dictInsert st2.resolved_full_cites d
            (resolve_full_citation pos d))
        rw [hrel]
        have hg : resolve_full_citation (pos + 1) d =
            posShift k (resolve_full_citation pos d) := by
          rw [posShift_of_le k _ hk]
          rfl
        rw [hg, dictInsert_mapVals]
      | short d => exact hrel
      | supra d => exact hrel
      | idc d => exact hrel
      | other d => exact hrel
    have := c1_trace_shift k post (pos + 1)
      (stepState defaultResolvers (pos + 1) c0 st1)
      (stepState defaultResolvers pos c0 st2) (by omega) hrel' j c
      (by simpa using h) hni
    simpa [traceFrom] using this

end ShiftMain


section Claims

/-- Counterexample to claim C1 as stated: in `[Full, Other, Id]` the `Id`
mention resolves to nothing (the `Other` overwrote last-resolution with
none), but after removing the `Other` mention the same `Id` mention resolves
to the full citation's resource — so removing an `Other` mention does change
the resolution of a remaining mention. -/
theorem spec_C1_counterexample :
    (resolveTrace defaultResolvers
        [Citation.full fdEx, Citation.other otherEx, Citation.idc idEx]).get? 2 =
      some none ∧
    (resolveTrace defaultResolvers
        [Citation.full fdEx, Citation.idc idEx]).get? 1 =
      some (some (Resource.mk 0 fdEx)) := by
  constructor <;> rfl

/-- Claim C1 (amended): removing a single `Other` mention (at position
`pre.length`) never changes the resolution of any remaining non-`Id`
mention; resources of the two runs correspond via `posShift`, which renames
a default resource by the position at which its full citation was processed.
`Id` mentions are excluded: an `Id` directly after the removed `Other` can
change from unresolved to resolved, as the counterexample shows. -/
theorem spec_C1 (pre post : List Citation) (o : OtherData) (i : Nat)
    (c : Citation) (hc : (pre ++ post).get? i = some c)
    (hni : isIdCitation c = false) :
    (resolveTrace defaultResolvers (pre ++ Citation.other o :: post)).get?
        (if i < pre.length then i else i + 1) =
      ((resolveTrace defaultResolvers (pre ++ post)).get? i).map
        (Option.map (posShift pre.length)) := by
  have hb0 : stBound 0 (@initState Resource) := by
    constructor
    · intro p hp
      exact absurd hp (List.not_mem_nil p)
    · intro r hr
      exact absurd hr (by simp [initState])
  have hlenPre : (traceFrom defaultResolvers pre 0 initState).length =
      pre.length := traceFrom_length defaultResolvers pre 0 initState
  have hsplit2 : resolveTrace defaultResolvers (pre ++ post) =
      traceFrom defaultResolvers pre 0 initState ++
        traceFrom defaultResolvers post pre.length
          (runFrom defaultResolvers pre 0 initState) := by
    show traceFrom defaultResolvers (pre ++ post) 0 initState = _
    rw [traceFrom_append, Nat.zero_add]
  have hsplit1 : resolveTrace defaultResolvers
        (pre ++ Citation.other o :: post) =
      traceFrom defaultResolvers pre 0 initState ++
        (none :: traceFrom defaultResolvers post (pre.length + 1)
          (stepState defaultResolvers pre.length (Citation.other o)
            (runFrom defaultResolvers pre 0 initState))) := by
    show traceFrom defaultResolvers (pre ++ Citation.other o :: post) 0
        initState = _
    rw [traceFrom_append, Nat.zero_add]
    rfl
  have hbPre : stBound pre.length (runFrom defaultResolvers pre 0 initState) := by
    have := runFrom_bound pre 0 initState hb0
    rw [Nat.zero_add] at this
    exact this
  by_cases hik : i < pre.length
  · rw [if_pos hik, hsplit1, hsplit2,
      List.get?_append (by rw [hlenPre]; exact hik),
      List.get?_append (by rw [hlenPre]; exact hik)]
    rcases ht : (traceFrom defaultResolvers pre 0 initState).get? i with _ | t
    · rfl
    · rcases t with _ | r
      · rfl
      · have hrb : r.pos < 0 + i + 1 :=
          traceFrom_bound pre 0 initState i r hb0 ht
        have hid : posShift pre.length r = r :=
          posShift_id_of_lt pre.length r (by omega)
        show some (some r) = some (Option.map (posShift pre.length) (some r))
        rw [Option.map_some', hid]
  · rw [if_neg hik, hsplit1, hsplit2,
      List.get?_append_right (by rw [hlenPre]; omega),
      List.get?_append_right (by rw [hlenPre]; omega), hlenPre]
    have hidx : i + 1 - pre.length = (i - pre.length) + 1 := by omega
    rw [hidx, List.get?_cons_succ]
    have hpost : post.get? (i - pre.length) = some c := by
      rw [List.get?_append_right (by omega)] at hc
      exact hc
    have hrel : (stepState defaultResolvers pre.length (Citation.other o)
          (runFrom defaultResolvers pre 0 initState)).resolved_full_cites =
        mapVals (posShift pre.length)
          (runFrom defaultResolvers pre 0 initState).resolved_full_cites := by

      have h1 : (stepState defaultResolvers pre.length (Citation.other o)
          (runFrom defaultResolvers pre 0 initState)).resolved_full_cites =
          (runFrom defaultResolvers pre 0 initState).resolved_full_cites := rfl
      rw [h1]
      symm
      apply mapVals_id_of
      intro p hp
      exact posShift_id_of_lt pre.length p.2 (hbPre.1 p hp)
    exact c1_trace_shift pre.length post pre.length _ _ (Nat.le_refl _) hrel
      (i - pre.length) c hpost hni

/-- Witness for the amended claim C1 at a concrete input: a supra mention
after a removed non-opinion mention resolves the same way in both runs. -/
theorem spec_C1_witness :
    (resolveTrace defaultResolvers
        [Citation.full fdEx, Citation.other otherEx, Citation.supra supEx]).get?
          2 =
      ((resolveTrace defaultResolvers
        [Citation.full fdEx, Citation.supra supEx]).get? 1).map
        (Option.map (posShift 1)) :=
  spec_C1 [Citation.full fdEx] [Citation.supra supEx] otherEx 1
    (Citation.supra supEx) rfl rfl

/-- Claim C2: with the default id resolver, the resolution of an `Id`
mention at position `i + 1` is exactly the resolution of the mention at
position `i` — it resolves to a resource R iff its predecessor did, and it
fails whenever its predecessor failed (including when the predecessor is an
`Other` mention), because last-resolution is overwritten with every
mention's own result regardless of outcome. -/
theorem spec_C2 {ρ : Type} [DecidableEq ρ] [PyBool ρ] (R : Resolvers ρ)
    (hid : R.idr = fun d l => resolve_id_citation d l) (cs : List Citation)
    (i : Nat) (t : IdData) (h : cs.get? (i + 1) = some (Citation.idc t)) :
    (resolveTrace R cs).get? (i + 1) = (resolveTrace R cs).get? i :=
  traceFrom_id_chain R hid cs 0 initState i t h

/-- Witness for claim C2: an `Id` mention right after an `Other` mention
takes over the `Other` mention's (failed) resolution. -/
theorem spec_C2_witness :
    (resolveTrace defaultResolvers
        [Citation.other otherEx, Citation.idc idEx]).get? 1 =
      (resolveTrace defaultResolvers
        [Citation.other otherEx, Citation.idc idEx]).get? 0 :=
  spec_C2 defaultResolvers rfl [Citation.other otherEx, Citation.idc idEx] 0
    idEx rfl

theorem mem_of_alookup {α β : Type} [DecidableEq α] :
    ∀ (l : List (α × β)) (k : α) (v : β),
      alookup l k = some v → (k, v) ∈ l
  | [], _, _, h => by simp [alookup] at h
  | p :: t, k, v, h => by
    by_cases hp : p.1 = k
    · have h2 : p.2 = v := by simpa [alookup, hp] using h
      refine List.mem_cons.mpr (Or.inl ?_)
      cases p
      simp_all
    · have := mem_of_alookup t k v (by simpa [alookup, hp] using h)
      exact List.mem_cons_of_mem p this

/-- Claim C3: with the default full-citation resolver every full mention
resolves — it appears in exactly one resource's list of the output grouping
(uniquely-occurring mention values stand for the distinct mention objects of
the Python input); and independently, for an arbitrary (also custom, also
falsy-valued) full resolver, the (mention, resource) pair is recorded in the
full-table. -/
theorem spec_C3 :
    (∀ (R : Resolvers Resource), R.full = resolve_full_citation →
      ∀ (cs : List Citation) (i : Nat) (d : FullData),
        cs.get? i = some (Citation.full d) →
        countC cs (Citation.full d) = 1 →
        ((resolve_citations R cs).filter
          (fun p => decide (Citation.full d ∈ p.2))).length = 1) ∧
    (∀ (ρ : Type) [DecidableEq ρ] [PyBool ρ] (R : Resolvers ρ)
      (cs : List Citation) (i : Nat) (d : FullData),
        cs.get? i = some (Citation.full d) →
        countC cs (Citation.full d) = 1 →
        alookup (runEngine R cs).resolved_full_cites d = some (R.full i d)) := by
  constructor
  · intro R hfull cs i d hget hcount
    have hnodup : (keysOf (resolve_citations R cs)).Nodup := by
      apply runFrom_keys_nodup
      exact List.nodup_nil
    have htrace : (resolveTrace R cs).get? i =
        some (some (R.full (0 + i) d)) :=
      traceFrom_get_full R cs 0 initState i d hget
    rw [Nat.zero_add, hfull] at htrace
    have htruthy : PyBool.truthy (resolve_full_citation i d) = true := rfl
    have hmemS : Citation.full d ∈
        selectFor (resolve_full_citation i d) cs (resolveTrace R cs) :=
      (mem_selectFor (resolve_full_citation i d) (Citation.full d) cs
        (resolveTrace R cs)).mpr ⟨i, hget, htrace⟩
    have hlook : alookup (resolve_citations R cs) (resolve_full_citation i d) =
        some (selectFor (resolve_full_citation i d) cs (resolveTrace R cs)) :=
      resolve_alookup_of_selectFor R cs (resolve_full_citation i d) htruthy
        (fun hnil => by
          rw [hnil] at hmemS
          exact absurd hmemS (List.not_mem_nil _))
    have hentry : (resolve_full_citation i d,
        selectFor (resolve_full_citation i d) cs (resolveTrace R cs)) ∈
          resolve_citations R cs :=
      mem_of_alookup (resolve_citations R cs) _ _ hlook
    apply filter_length_one_of_key _ (resolve_citations R cs) hentry hnodup
    intro p hp
    constructor
    · intro hPp
      have hmem2 : Citation.full d ∈ p.2 := of_decide_eq_true hPp
      have hlookp : alookup (resolve_citations R cs) p.1 = some p.2 :=
        alookup_of_mem_nodup (resolve_citations R cs) p hp hnodup
      rcases resolve_alookup_char R cs p.1 p.2 hlookp with ⟨-, hsel⟩
      rw [hsel] at hmem2
      rcases (mem_selectFor p.1 (Citation.full d) cs
        (resolveTrace R cs)).mp hmem2 with ⟨j, hj1, hj2⟩
      have hij : i = j :=
        get?_unique_of_countC_one cs (Citation.full d) i j hcount hget hj1
      subst hij
      rw [htrace] at hj2
      have hp1 : p.1 = resolve_full_citation i d :=
        (Option.some_inj.mp (Option.some_inj.mp hj2)).symm
      cases p with
      | mk a b =>
        simp only at hp1 hsel
        subst hp1
        rw [hsel]
    · intro hpe
      rw [hpe]
      exact decide_eq_true hmemS
  · intro ρ instD instP R cs i d h1 h2
    have := runFrom_table_records R d cs 0 initState i h1 h2
    rw [Nat.zero_add] at this
    exact this

/-- Witness for claim C3: a single full mention lands in exactly one list
under the defaults, and a custom falsy-valued full resolver still records
the pair in the full-table. -/
theorem spec_C3_witness :
    ((resolve_citations defaultResolvers [Citation.full fdEx]).filter
      (fun p => decide (Citation.full fdEx ∈ p.2))).length = 1 ∧
    alookup (runEngine resolversZero
      [Citation.full fdEx]).resolved_full_cites fdEx = some 0 :=
  ⟨spec_C3.1 defaultResolvers rfl [Citation.full fdEx] 0 fdEx rfl (by decide),
   spec_C3.2 Nat resolversZero [Citation.full fdEx] 0 fdEx rfl (by decide)⟩

/-- Claim C4: every list of the output grouping is exactly the subsequence
(in original order) of input mentions whose resolution is that list's
resource, so a mention that fails to resolve appears in no list; and a
uniquely-occurring mention value cannot appear in the lists of two distinct
resources. -/
theorem spec_C4 {ρ : Type} [DecidableEq ρ] [PyBool ρ] (R : Resolvers ρ)
    (cs : List Citation) :
    (∀ (r : ρ) (l : List Citation),
      alookup (resolve_citations R cs) r = some l →
      PyBool.truthy r = true ∧ l = selectFor r cs (resolveTrace R cs) ∧
        l.Sublist cs) ∧
    (∀ (r r' : ρ) (l l' : List Citation) (c : Citation), r ≠ r' →
      alookup (resolve_citations R cs) r = some l →
      alookup (resolve_citations R cs) r' = some l' →
      countC cs c = 1 → c ∈ l → c ∉ l') := by
  constructor
  · intro r l h
    rcases resolve_alookup_char R cs r l h with ⟨h1, h2⟩
    refine ⟨h1, h2, ?_⟩
    rw [h2]
    exact selectFor_sublist r cs (resolveTrace R cs)
  · intro r r' l l' c hne h1 h2 hcount hc hc'
    rcases resolve_alookup_char R cs r l h1 with ⟨-, hl⟩
    rcases resolve_alookup_char R cs r' l' h2 with ⟨-, hl'⟩
    rw [hl] at hc
    rw [hl'] at hc'
    rcases (mem_selectFor r c cs (resolveTrace R cs)).mp hc with ⟨j, hj1, hj2⟩
    rcases (mem_selectFor r' c cs (resolveTrace R cs)).mp hc' with
      ⟨j', hj1', hj2'⟩
    have hjj : j = j' :=
      get?_unique_of_countC_one cs c j j' hcount hj1 hj1'
    subst hjj
    rw [hj2] at hj2'
    exact hne (Option.some_inj.mp (Option.some_inj.mp hj2'))

/-- Witness for claim C4 at a concrete input: the one grouping list equals
the selected subsequence and is a sublist of the input. -/
theorem spec_C4_witness :
    PyBool.truthy (Resource.mk 0 fdEx) = true ∧
    [Citation.full fdEx] = selectFor (Resource.mk 0 fdEx) [Citation.full fdEx]
      (resolveTrace defaultResolvers [Citation.full fdEx]) ∧
    [Citation.full fdEx].Sublist [Citation.full fdEx] :=
  (spec_C4 defaultResolvers [Citation.full fdEx]).1 (Resource.mk 0 fdEx)
    [Citation.full fdEx] (by decide)

/-- Claim C5: the antecedent matcher resolves to `r` iff some candidate pair
carries resource `r` and matches the punctuation-stripped guess (substring of
the present-and-nonempty defendant, else plaintiff, case-sensitively) while
every matching candidate carries that same resource — i.e. matches are
deduplicated by resource and exactly one distinct resource must remain; in
particular two matching candidates with distinct resources force an
unresolved outcome. -/
theorem spec_C5 {ρ : Type} [DecidableEq ρ] (l : List (FullData × ρ))
    (g : String) :
    (∀ r : ρ, filter_by_matching_antecedent l g = some r ↔
      ((∃ p, p ∈ l ∧ p.2 = r ∧ matcherHit (strip_punct g) p.1 = true) ∧
       (∀ p, p ∈ l → matcherHit (strip_punct g) p.1 = true → p.2 = r))) ∧
    (∀ p q : FullData × ρ, p ∈ l → q ∈ l →
      matcherHit (strip_punct g) p.1 = true →
      matcherHit (strip_punct g) q.1 = true → p.2 ≠ q.2 →
      filter_by_matching_antecedent l g = none) :=
  ⟨fun r => fbm_eq_some_iff l g r,
   fun p q hp hq hph hqh hne => fbm_none_of_ambiguous l g p q hp hq hph hqh hne⟩

/-- Witness for claim C5: two distinct resources whose full citations both
contain the guess Foo in their defendant leave the matcher unresolved. -/
theorem spec_C5_witness :
    filter_by_matching_antecedent [(fdFoo1, (1 : Nat)), (fdFoo2, 2)] "Foo" =
      none :=
  (spec_C5 [(fdFoo1, (1 : Nat)), (fdFoo2, 2)] "Foo").2 (fdFoo1, 1) (fdFoo2, 2)
    (by decide) (by decide) (by decide) (by decide) (by decide)

/-- Claim C6: the default short-form resolver filters the full-table to
case-subtype full citations with equal corrected reporter and string-equal
raw volume token (`shortCandidates`); if the filtered candidates map to
exactly one distinct resource it resolves to it, else with a truthy
antecedent guess it runs the antecedent matcher restricted to the filtered
candidates, else it is unresolved. -/
theorem spec_C6 {ρ : Type} [DecidableEq ρ] (sc : ShortData)
    (table : List (FullData × ρ)) :
    (∀ r : ρ, r ∈ (shortCandidates sc table).map Prod.snd →
      (∀ x ∈ (shortCandidates sc table).map Prod.snd, x = r) →
      resolve_shortcase_citation sc table = some r) ∧
    (∀ gs : String, ¬uniqueRes ((shortCandidates sc table).map Prod.snd) →
      sc.metadata.antecedent_guess = some gs →
      pyStrTruthy sc.metadata.antecedent_guess = true →
      resolve_shortcase_citation sc table =
        filter_by_matching_antecedent (shortCandidates sc table) gs) ∧
    (¬uniqueRes ((shortCandidates sc table).map Prod.snd) →
      pyStrTruthy sc.metadata.antecedent_guess = false →
      resolve_shortcase_citation sc table = none) :=
  ⟨fun r hr hall => resolve_shortcase_unique sc table r hr hall,
   fun gs hnu hg ht => resolve_shortcase_not_unique_guess sc table hnu gs hg ht,
   fun hnu ht => resolve_shortcase_not_unique_noguess sc table hnu ht⟩

/-- Witness for claim C6: a short mention of 1 U.S. resolves to the unique
matching full citation's resource. -/
theorem spec_C6_witness :
    resolve_shortcase_citation scEx [(fdEx, (7 : Nat))] = some 7 :=
  (spec_C6 scEx [(fdEx, (7 : Nat))]).1 7 (by decide) (by decide)

/-- Claim C7: the default supra resolver is unresolved whenever the supra
mention carries no (truthy) antecedent guess; with a guess it applies the
antecedent matcher over the whole full-table, with no reporter or volume
narrowing. -/
theorem spec_C7 {ρ : Type} [DecidableEq ρ] (sup : SupraData)
    (table : List (FullData × ρ)) :
    (pyStrTruthy sup.metadata.antecedent_guess = false →
      resolve_supra_citation sup table = none) ∧
    (∀ gs : String, sup.metadata.antecedent_guess = some gs →
      pyStrTruthy sup.metadata.antecedent_guess = true →
      resolve_supra_citation sup table =
        filter_by_matching_antecedent table gs) :=
  ⟨fun ht => resolve_supra_noguess sup table ht,
   fun gs hg ht => resolve_supra_guess sup table gs hg ht⟩

/-- Witness for claim C7 at concrete inputs: a guess-free supra mention is
unresolved, and one with a guess delegates to the matcher on the whole
table. -/
theorem spec_C7_witness :
    resolve_supra_citation supNoGuess ([] : List (FullData × Nat)) = none ∧
    resolve_supra_citation supEx [(fdEx, (3 : Nat))] =
      filter_by_matching_antecedent [(fdEx, (3 : Nat))] "Foo" :=
  ⟨(spec_C7 supNoGuess ([] : List (FullData × Nat))).1 rfl,
   (spec_C7 supEx [(fdEx, (3 : Nat))]).2 "Foo" rfl rfl⟩

/-- Claim C8 (prefix determinism): the per-mention resolutions computed on
`cs1 ++ cs2` agree, on the first `cs1.length` positions, with the
resolutions computed on `cs1` alone — each mention's resolution depends only
on the mentions strictly before it.  Holds for arbitrary injected
resolvers. -/
theorem spec_C8 {ρ : Type} [DecidableEq ρ] [PyBool ρ] (R : Resolvers ρ)
    (cs1 cs2 : List Citation) :
    (resolveTrace R (cs1 ++ cs2)).take cs1.length = resolveTrace R cs1 := by
  show (traceFrom R (cs1 ++ cs2) 0 initState).take cs1.length = _
  rw [traceFrom_append]
  have hlen : (traceFrom R cs1 0 initState).length = cs1.length :=
    traceFrom_length R cs1 0 initState
  rw [← hlen, List.take_left]
  rfl

theorem runFrom_take_last {ρ : Type} [DecidableEq ρ] [PyBool ρ]
    (R : Resolvers ρ) :
    ∀ (cs : List Citation) (pos : Nat) (st : EngineState ρ) (i : Nat)
      (x : Option ρ),
      (traceFrom R cs pos st).get? i = some x →
      (runFrom R (cs.take (i + 1)) pos st).last_resolution = x
  | [], _, _, i, _, h => by simp [traceFrom] at h
  | c :: cs, pos, st, 0, x, h => by
    have hx : stepResolution R pos c st = x := by simpa [traceFrom] using h
    show (runFrom R [c] pos st).last_resolution = x
    rw [← hx]
    rfl
  | c :: cs, pos, st, i + 1, x, h => by
    have := runFrom_take_last R cs (pos + 1) (stepState R pos c st) i x
      (by simpa [traceFrom] using h)
    exact this

/-- Claim C9: success is judged by Python truthiness, not by
not-being-none.  Whenever the resolver handling the mention at position `i`
— whichever of the four injected slots it is — returns a falsy resource
(its trace entry is `some r` with `r` falsy), the engine still sets
last-resolution to that falsy value, the mention enters no grouping list,
an immediately following `Id` mention (default id resolver) receives the
same falsy value and is likewise omitted, and if the mention is a full
citation the (mention, resource) pair is nevertheless stored in the
full-table. -/
theorem spec_C9 {ρ : Type} [DecidableEq ρ] [PyBool ρ] (R : Resolvers ρ)
    (hid : R.idr = fun d l => resolve_id_citation d l) (cs : List Citation)
    (i : Nat) (c : Citation) (r : ρ) (hc : cs.get? i = some c)
    (hr : (resolveTrace R cs).get? i = some (some r))
    (hfalsy : PyBool.truthy r = false) :
    (runFrom R (cs.take (i + 1)) 0 initState).last_resolution = some r ∧
    (countC cs c = 1 → ∀ (r' : ρ) (l : List Citation),
      alookup (resolve_citations R cs) r' = some l → c ∉ l) ∧
    (∀ t : IdData, cs.get? (i + 1) = some (Citation.idc t) →
      (resolveTrace R cs).get? (i + 1) = some (some r)) ∧
    (∀ t : IdData, cs.get? (i + 1) = some (Citation.idc t) →
      countC cs (Citation.idc t) = 1 →
      ∀ (r' : ρ) (l : List Citation),
        alookup (resolve_citations R cs) r' = some l → Citation.idc t ∉ l) ∧
    (∀ d : FullData, c = Citation.full d → countC cs (Citation.full d) = 1 →
      alookup (runEngine R cs).resolved_full_cites d = some (R.full i d)) := by
  have hlast : (runFrom R (cs.take (i + 1)) 0 initState).last_resolution =
      some r := runFrom_take_last R cs 0 initState i (some r) hr
  have hnext : ∀ t : IdData, cs.get? (i + 1) = some (Citation.idc t) →
      (resolveTrace R cs).get? (i + 1) = some (some r) := by
    intro t ht
    have hchain := traceFrom_id_chain R hid cs 0 initState i t ht
    show (traceFrom R cs 0 initState).get? (i + 1) = _
    rw [hchain]
    exact hr
  refine ⟨hlast, ?_, hnext, ?_, ?_⟩
  · intro hcnt r' l hl hmem
    rcases resolve_alookup_char R cs r' l hl with ⟨htr, hsel⟩
    rw [hsel] at hmem
    rcases (mem_selectFor r' c cs (resolveTrace R cs)).mp hmem with
      ⟨j, hj1, hj2⟩
    have hij : i = j := get?_unique_of_countC_one cs c i j hcnt hc hj1
    subst hij
    rw [hr] at hj2
    have hrr : r = r' := Option.some_inj.mp (Option.some_inj.mp hj2)
    rw [← hrr] at htr
    rw [htr] at hfalsy
    exact Bool.noConfusion hfalsy
  · intro t ht hcnt r' l hl hmem
    rcases resolve_alookup_char R cs r' l hl with ⟨htr, hsel⟩
    rw [hsel] at hmem
    rcases (mem_selectFor r' (Citation.idc t) cs (resolveTrace R cs)).mp hmem
      with ⟨j, hj1, hj2⟩
    have hij : i + 1 = j :=
      get?_unique_of_countC_one cs (Citation.idc t) (i + 1) j hcnt ht hj1
    subst hij
    rw [hnext t ht] at hj2
    have hrr : r = r' := Option.some_inj.mp (Option.some_inj.mp hj2)
    rw [← hrr] at htr
    rw [htr] at hfalsy
    exact Bool.noConfusion hfalsy
  · intro d hcd hcnt
    subst hcd
    have := runFrom_table_records R d cs 0 initState i hc hcnt
    rw [Nat.zero_add] at this
    exact this

/-- Witness for claim C9: a custom short-form resolver returning the falsy
resource 0 still sets last-resolution to 0 and hands it to the following id
mention, and a falsy full resolution is still recorded in the full-table. -/
theorem spec_C9_witness :
    (runFrom resolversFalsyShort
      ([Citation.short scEx, Citation.idc idEx].take 1) 0
        initState).last_resolution = some 0 ∧
    (resolveTrace resolversFalsyShort
      [Citation.short scEx, Citation.idc idEx]).get? 1 = some (some 0) ∧
    alookup (runEngine resolversZero
      [Citation.full fdEx]).resolved_full_cites fdEx = some 0 := by
  have h1 := spec_C9 resolversFalsyShort rfl
    [Citation.short scEx, Citation.idc idEx] 0 (Citation.short scEx) 0
    rfl rfl rfl
  have h2 := spec_C9 resolversZero rfl [Citation.full fdEx] 0
    (Citation.full fdEx) 0 rfl rfl rfl
  exact ⟨h1.1, h1.2.2.1 idEx rfl, h2.2.2.2.2 fdEx rfl (by decide)⟩

/-- Claim C10: the antecedent matcher ignores every non-case candidate (its
result only depends on the case-subtype candidates, so it never reads
metadata of law or journal mentions), a candidate with missing defendant and
plaintiff never matches, and any resource returned by the matcher, the
short-form resolver, or the supra resolver is the resource of some
case-subtype full citation of the table. -/
theorem spec_C10 {ρ : Type} [DecidableEq ρ] :
    (∀ (l : List (FullData × ρ)) (g : String),
      filter_by_matching_antecedent l g =
        filter_by_matching_antecedent
          (l.filter (fun p => decide (p.1.kind = FullKind.caseKind))) g) ∧
    (∀ (ag : String) (fd : FullData), fd.metadata.defendant = none →
      fd.metadata.plaintiff = none → antecedentMatch ag fd = false) ∧
    (∀ (l : List (FullData × ρ)) (g : String) (r : ρ),
      filter_by_matching_antecedent l g = some r →
      ∃ p, p ∈ l ∧ p.2 = r ∧ p.1.kind = FullKind.caseKind) ∧
    (∀ (sc : ShortData) (table : List (FullData × ρ)) (r : ρ),
      resolve_shortcase_citation sc table = some r →
      ∃ p, p ∈ table ∧ p.2 = r ∧ p.1.kind = FullKind.caseKind) ∧
    (∀ (sup : SupraData) (table : List (FullData × ρ)) (r : ρ),
      resolve_supra_citation sup table = some r →
      ∃ p, p ∈ table ∧ p.2 = r ∧ p.1.kind = FullKind.caseKind) := by
  refine ⟨?_, ?_, fbm_case_source, resolve_shortcase_case_source,
    resolve_supra_case_source⟩
  · intro l g
    rw [fbm_unfold, fbm_unfold, List.filter_filter]
    have hfilt : (l.filter (fun p => matcherHit (strip_punct g) p.1)) =
        (l.filter (fun a => matcherHit (strip_punct g) a.1 &&
          decide (a.1.kind = FullKind.caseKind))) := by
      refine List.filter_congr' ?_
      intro a _
      unfold matcherHit
      cases hd : decide (a.1.kind = FullKind.caseKind) <;> simp [hd]
    rw [hfilt]
  · intro ag fd h1 h2
    unfold antecedentMatch
    rw [h1, h2]
    rfl

/-- Witness for claim C10 at concrete inputs: a law citation is invisible to
the matcher, and a case citation with no party metadata never matches. -/
theorem spec_C10_witness :
    filter_by_matching_antecedent [(fdLaw, (1 : Nat))] "Foo" =
      filter_by_matching_antecedent
        ([(fdLaw, (1 : Nat))].filter
          (fun p => decide (p.1.kind = FullKind.caseKind))) "Foo" ∧
    antecedentMatch "Foo" fdNone = false :=
  ⟨(@spec_C10 Nat _).1 [(fdLaw, 1)] "Foo",
   (@spec_C10 Nat _).2.1 "Foo" fdNone rfl rfl⟩

end Claims

end Eyecite
